import Mathlib

/-!
# Huffman encoder of `script.js`

A shallow embedding of `huffmanEncode` (and of the `HuffmanNode` class it builds) together
with the properties of the code table, the tree and the statistics it returns.

Modelling conventions.

* A JavaScript string is the list of its UTF-16 code units (`JSString`).  `text.length` is the
  length of that list, while `for (const char of text)` walks the string by code point: a high
  surrogate directly followed by a low surrogate is delivered as one two-unit string.
* A plain JavaScript object used as a dictionary is an association list in creation order
  (`JSObject`); `for (const k in obj)` visits array-index keys first, in ascending numeric
  order, and the remaining keys in creation order.
* `Array.prototype.sort` is stable; with the comparator `a.freq - b.freq` it is a stable
  ascending sort on `freq`.
* Numbers are natural numbers (counts and bit totals stay far below `2^53`); the compression
  ratio is computed over the rationals, and the string produced by `toFixed(2)` is
  represented by the number it denotes.
-/

namespace Huffman

/-! ## Definitions: the embedding of the program and the notions of the specification -/

/-- A JavaScript string: its sequence of UTF-16 code units. -/
abbrev JSString := List Nat

/-- High (leading) surrogate code units `0xD800 .. 0xDBFF`. -/
def isHighSurrogate (u : Nat) : Bool := decide (0xD800 ≤ u) && decide (u ≤ 0xDBFF)

/-- Low (trailing) surrogate code units `0xDC00 .. 0xDFFF`. -/
def isLowSurrogate (u : Nat) : Bool := decide (0xDC00 ≤ u) && decide (u ≤ 0xDFFF)

/-- The string iterator, with the high surrogate that is still waiting for its partner. -/
def iterFrom : Option Nat → JSString → List JSString
  | none, [] => []
  | some h, [] => [[h]]
  | none, u :: rest =>
      if isHighSurrogate u then iterFrom (some u) rest else [u] :: iterFrom none rest
  | some h, u :: rest =>
      if isLowSurrogate u then [h, u] :: iterFrom none rest
      else if isHighSurrogate u then [h] :: iterFrom (some u) rest
      else [h] :: [u] :: iterFrom none rest

/-- The values produced by `for (const char of text)`: one string per code point. -/
def stringIterator (text : JSString) : List JSString := iterFrom none text

/-- A plain object used as a dictionary: its own properties in creation order. -/
abbrev JSObject (α : Type) := List (JSString × α)

/-- Property read `obj[key]`; `none` stands for `undefined`.  Only own properties are looked
up: the keys used by the encoder are single characters, and no property inherited from
`Object.prototype` has such a name. -/
def JSObject.get {α : Type} : JSObject α → JSString → Option α
  | [], _ => none
  | (k, v) :: rest, key => if k = key then some v else JSObject.get rest key

/-- Property write `obj[key] = value`: overwrite in place, or create at the end. -/
def JSObject.set {α : Type} : JSObject α → JSString → α → JSObject α
  | [], key, value => [(key, value)]
  | (k, v) :: rest, key, value =>
      if k = key then (k, value) :: rest else (k, v) :: JSObject.set rest key value

/-- The property names of an object. -/
def JSObject.keys {α : Type} (obj : JSObject α) : List JSString := obj.map Prod.fst

/-- ASCII decimal digit code units. -/
def isDigit (u : Nat) : Bool := decide (48 ≤ u) && decide (u ≤ 57)

/-- Numeric value of a string of decimal digits. -/
def decimalValue (k : JSString) : Nat := k.foldl (fun acc u => 10 * acc + (u - 48)) 0

/-- A property name is an array index when it is the canonical decimal form of an integer
below `2^32 - 1`. -/
def isArrayIndex (k : JSString) : Bool :=
  !k.isEmpty && k.all isDigit && (k.length == 1 || k.head? != some 48)
    && decide (decimalValue k < 2 ^ 32 - 1)

/-- Ordering of array-index property names by numeric value. -/
def indexLE {α : Type} (a b : JSString × α) : Prop := decimalValue a.1 ≤ decimalValue b.1

instance {α : Type} : DecidableRel (indexLE (α := α)) :=
  fun a b => inferInstanceAs (Decidable (decimalValue a.1 ≤ decimalValue b.1))

/-- The entries visited by `for (const k in obj)`: array-index names in ascending numeric
order, then all other names in creation order. -/
def forInEntries {α : Type} (obj : JSObject α) : List (JSString × α) :=
  (obj.filter (fun e => isArrayIndex e.1)).insertionSort indexLE
    ++ obj.filter (fun e => !isArrayIndex e.1)

/-- Instances of `HuffmanNode`.  The constructor is called in two shapes only:
`new HuffmanNode(char, freq)` (both children `null`, a leaf) and
`new HuffmanNode(null, freq, left, right)` with two existing nodes. -/
inductive HuffmanNode where
  | leaf (char : JSString) (freq : Nat)
  | node (freq : Nat) (left right : HuffmanNode)
  deriving DecidableEq, Repr

namespace HuffmanNode

/-- The `freq` field. -/
def freq : HuffmanNode → Nat
  | leaf _ f => f
  | node f _ _ => f

/-- The method `isLeaf()`: `left === null && right === null`. -/
def isLeaf : HuffmanNode → Bool
  | leaf _ _ => true
  | node _ _ _ => false

/-- The `left` field; `none` stands for `null`. -/
def left : HuffmanNode → Option HuffmanNode
  | leaf _ _ => none
  | node _ l _ => some l

/-- The `right` field; `none` stands for `null`. -/
def right : HuffmanNode → Option HuffmanNode
  | leaf _ _ => none
  | node _ _ r => some r

end HuffmanNode

open HuffmanNode

/-- The order induced by the comparator `(a, b) => a.freq - b.freq`. -/
def freqLE (a b : HuffmanNode) : Prop := a.freq ≤ b.freq

instance : DecidableRel freqLE := fun a b => inferInstanceAs (Decidable (a.freq ≤ b.freq))

/-- The call `nodes.sort((a, b) => a.freq - b.freq)`: stable ascending sort on `freq`. -/
def sortNodes (nodes : List HuffmanNode) : List HuffmanNode := nodes.insertionSort freqLE

/-- One pass of the body of the `while` loop: sort, shift twice, push the parent.  Under the
loop guard the pool has two nodes at least, so the last arm is never reached
(`mergeStep_cases`). -/
def mergeStep (nodes : List HuffmanNode) : List HuffmanNode :=
  match sortNodes nodes with
  | l :: r :: rest => rest ++ [node (l.freq + r.freq) l r]
  | other => other

/-- The loop `while (nodes.length > 1) { ... }`, run for at most `fuel` passes.  Each pass
shortens the pool by one, so `nodes.length` passes are more than the loop uses: with that
bound it stops because its guard fails (`whileLoop_tree`), and a larger bound gives the same
pool (`whileLoop_fuel`). -/
def whileLoop : Nat → List HuffmanNode → List HuffmanNode
  | 0, nodes => nodes
  | fuel + 1, nodes => if nodes.length > 1 then whileLoop fuel (mergeStep nodes) else nodes

/-- The code unit of the character `'0'`. -/
def zero : Nat := 48

/-- The code unit of the character `'1'`. -/
def one : Nat := 49

/-- The inner function `generateCodesRecursive(node, currentCode)` for a non-null node; the
object `huffmanCodes` it writes to is threaded through. -/
def generateCodesRecursive : HuffmanNode → JSString → JSObject JSString → JSObject JSString
  | leaf char _, currentCode, huffmanCodes =>
      huffmanCodes.set char (if currentCode = [] then [zero] else currentCode)
  | node _ l r, currentCode, huffmanCodes =>
      generateCodesRecursive r (currentCode ++ [one])
        (generateCodesRecursive l (currentCode ++ [zero]) huffmanCodes)

/-- The field `stats` of the result. -/
structure Stats where
  originalLength : Option Nat
  originalBits : Nat
  encodedBits : Nat
  ratio : ℚ
  deriving DecidableEq

/-- The object returned by `huffmanEncode`. -/
structure Result where
  codes : JSObject JSString
  tree : Option HuffmanNode
  stats : Stats
  deriving DecidableEq

/-- The body of the first loop: `frequencies[char] = (frequencies[char] || 0) + 1`. -/
def tally (frequencies : JSObject Nat) (char : JSString) : JSObject Nat :=
  frequencies.set char ((frequencies.get char).getD 0 + 1)

/-- The first loop: the table `frequencies` after `for (const char of text)`. -/
def countFrequencies (text : JSString) : JSObject Nat :=
  (stringIterator text).foldl tally []

/-- The second loop: one leaf per property of `frequencies`, in `for...in` order. -/
def initialNodes (frequencies : JSObject Nat) : List HuffmanNode :=
  (forInEntries frequencies).map (fun e => leaf e.1 e.2)

/-- The value of `treeRoot`: the node left in the pool once the loop has ended. -/
def buildTree (text : JSString) : Option HuffmanNode :=
  let nodes := initialNodes (countFrequencies text)
  (whileLoop nodes.length nodes).head?

/-- The contents of `huffmanCodes` after the top-level call of `generateCodesRecursive`. -/
def generateCodes : Option HuffmanNode → JSObject JSString
  | none => []
  | some treeRoot =>
      if treeRoot.isLeaf then generateCodesRecursive treeRoot [zero] []
      else generateCodesRecursive treeRoot [] []

/-- The last loop: add the length of the code of each character that has a (truthy) code. -/
def countEncodedBits (huffmanCodes : JSObject JSString) (text : JSString) : Nat :=
  (stringIterator text).foldl
    (fun encodedBits char =>
      match huffmanCodes.get char with
      | some code => if code ≠ [] then encodedBits + code.length else encodedBits
      | none => encodedBits)
    0

/-- Decimal rounding performed by `toFixed(2)`, as a number. -/
def toFixed2 (x : ℚ) : ℚ :=
  if x < 0 then -((⌊(-x) * 100 + 1 / 2⌋ : ℤ) / 100) else (⌊x * 100 + 1 / 2⌋ : ℤ) / 100

/-- The function `huffmanEncode(text)`. -/
def huffmanEncode (text : JSString) : Result :=
  if text = [] then
    { codes := [], tree := none,
      stats := { originalLength := none, originalBits := 0, encodedBits := 0, ratio := 0 } }
  else
    let treeRoot := buildTree text
    let huffmanCodes := generateCodes treeRoot
    let originalBits := text.length * 8
    let encodedBits := countEncodedBits huffmanCodes text
    let ratio : ℚ := if originalBits > 0 then (1 - (encodedBits : ℚ) / originalBits) * 100 else 0
    { codes := huffmanCodes, tree := treeRoot,
      stats := { originalLength := some text.length, originalBits := originalBits,
                 encodedBits := encodedBits, ratio := toFixed2 ratio } }

/-! ### Notions used to state the properties -/

namespace HuffmanNode

/-- The leaves of a tree, left to right, each with its symbol and frequency. -/
def leaves : HuffmanNode → JSObject Nat
  | leaf c f => [(c, f)]
  | node _ l r => l.leaves ++ r.leaves

/-- Number of leaves. -/
def leafCount : HuffmanNode → Nat
  | leaf _ _ => 1
  | node _ l r => l.leafCount + r.leafCount

/-- Number of internal nodes. -/
def internalCount : HuffmanNode → Nat
  | leaf _ _ => 0
  | node _ l r => 1 + l.internalCount + r.internalCount

/-- Every node of a tree, the root first. -/
def subtrees : HuffmanNode → List HuffmanNode
  | leaf c f => [leaf c f]
  | node f l r => node f l r :: (l.subtrees ++ r.subtrees)

/-- The merge rule at one node: an internal node has two children, carries the sum of their
frequencies, and its left child is not heavier than its right child. -/
def mergedHere (n : HuffmanNode) : Prop :=
  n.isLeaf = false →
    ∃ l r, n.left = some l ∧ n.right = some r ∧ n.freq = l.freq + r.freq ∧ l.freq ≤ r.freq

/-- The merge rule at every node of a tree. -/
def mergeRule : HuffmanNode → Prop
  | leaf _ _ => True
  | node f l r => f = l.freq + r.freq ∧ l.freq ≤ r.freq ∧ l.mergeRule ∧ r.mergeRule

end HuffmanNode

instance : IsTotal HuffmanNode freqLE := ⟨fun a b => Nat.le_total a.freq b.freq⟩

instance : IsTrans HuffmanNode freqLE := ⟨fun _ _ _ h1 h2 => Nat.le_trans h1 h2⟩

/-- All leaves held in the pool. -/
def poolLeaves (ns : List HuffmanNode) : JSObject Nat := (ns.map HuffmanNode.leaves).flatten

/-- The assignments `huffmanCodes[char] = code` made by `generateCodesRecursive(node,
currentCode)`, in the order in which they are made. -/
def codeList : HuffmanNode → JSString → JSObject JSString
  | leaf c _, cur => [(c, if cur = [] then [zero] else cur)]
  | node _ l r, cur => codeList l (cur ++ [zero]) ++ codeList r (cur ++ [one])

/-- A run of property writes. -/
def assignAll (tbl : JSObject JSString) (l : JSObject JSString) : JSObject JSString :=
  l.foldl (fun tb e => tb.set e.1 e.2) tbl

/-- Decoding walk: from a node, go to the left child on `'0'` and to the right child on
`'1'`; `none` when the child asked for is `null` (or the character is not a bit). -/
def walk : JSString → HuffmanNode → Option HuffmanNode
  | [], t => some t
  | b :: bs, t =>
      if b = zero then t.left.bind (walk bs)
      else if b = one then t.right.bind (walk bs)
      else none

/-- The distinct symbols of a text. -/
def distinctSymbols (text : JSString) : List JSString := (stringIterator text).dedup

/-- Round trip for one text: the code of every symbol of the table, walked from the root of
the returned tree, ends at the leaf of that symbol. -/
def RoundTrip (text : JSString) : Prop :=
  ∀ s code, (huffmanEncode text).codes.get s = some code →
    ∃ root f, (huffmanEncode text).tree = some root ∧ walk code root = some (leaf s f)

/-- Total of the frequencies of the parents that the loop creates, as a function of the
frequencies held in the pool: sort, add the two smallest, put the sum back. -/
def mergeCost (ws : List Nat) : Nat :=
  match h : ws.insertionSort (· ≤ ·) with
  | a :: b :: rest => (a + b) + mergeCost (rest ++ [a + b])
  | _ => 0
termination_by ws.length
decreasing_by
  have hl := (List.perm_insertionSort (· ≤ ·) ws).length_eq
  rw [h] at hl
  simp at hl ⊢
  omega

/-- A string of the characters `'0'` and `'1'`. -/
def Binary (c : JSString) : Prop := ∀ u ∈ c, u = zero ∨ u = one

instance : DecidablePred Binary :=
  fun c => inferInstanceAs (Decidable (∀ u ∈ c, u = zero ∨ u = one))

/-- Neither string is a prefix of the other. -/
def Incomparable (x y : JSString) : Prop := ¬ x <+: y ∧ ¬ y <+: x

instance : DecidableRel Incomparable :=
  fun x y => inferInstanceAs (Decidable (¬ x <+: y ∧ ¬ y <+: x))

/-- The other bit. -/
def flipBit (u : Nat) : Nat := if u = zero then one else zero

/-- Weighted length of a list of (weight, codeword) pairs. -/
def cost (cw : List (Nat × JSString)) : Nat := (cw.map (fun e => e.1 * e.2.length)).sum

/-- Total length of the codewords of a list of (weight, codeword) pairs. -/
def totalLength (cw : List (Nat × JSString)) : Nat := (cw.map (fun e => e.2.length)).sum

/-- Sum of the `freq` fields of the internal nodes of a tree. -/
def HuffmanNode.internalSum : HuffmanNode → Nat
  | leaf _ _ => 0
  | node f l r => f + l.internalSum + r.internalSum

/-- Sum, over the codes written by `generateCodesRecursive(node, currentCode)`, of the
frequency of the leaf times the length of the code. -/
def pathCost : HuffmanNode → JSString → Nat
  | leaf _ f, cur => f * (if cur = [] then [zero] else cur).length
  | node _ l r, cur => pathCost l (cur ++ [zero]) + pathCost r (cur ++ [one])

/-- The quantity kept by the loop: internal sums of the trees of the pool plus the cost of
the merges still to come. -/
def poolCost (ns : List HuffmanNode) : Nat :=
  (ns.map HuffmanNode.internalSum).sum + mergeCost (ns.map HuffmanNode.freq)

/-- Weighted path length of a code for a text: the sum, over the distinct symbols of the
text, of the frequency of the symbol times the length of its code. -/
def weightedLength (code : JSString → JSString) (text : JSString) : Nat :=
  ((distinctSymbols text).map
    (fun s => (stringIterator text).count s * (code s).length)).sum

/-- The code that a table gives to a symbol (the empty string when it gives none). -/
def tableCode (tbl : JSObject JSString) (s : JSString) : JSString := (tbl.get s).getD []

/-- A binary prefix-free code for the symbols of a text: every symbol gets a string of
`'0'` and `'1'`, and the code of a symbol is never a prefix of the code of another one. -/
def IsPrefixCode (text : JSString) (alt : JSString → JSString) : Prop :=
  (∀ s ∈ stringIterator text, Binary (alt s)) ∧
  ∀ a ∈ stringIterator text, ∀ b ∈ stringIterator text, a ≠ b → ¬ alt a <+: alt b

/-- Optimality as C2 states it: no binary prefix-free code for the symbols of the text has a
smaller weighted path length than the returned table. -/
def Optimal (text : JSString) : Prop :=
  ∀ alt, IsPrefixCode text alt →
    weightedLength (tableCode (huffmanEncode text).codes) text ≤ weightedLength alt text

/-! ## Theorems -/

/-! ## Objects: reading and writing properties -/

theorem JSObject.get_set_self {α : Type} (obj : JSObject α) (k : JSString) (v : α) :
    (obj.set k v).get k = some v := by
  induction obj with
  | nil => simp [JSObject.set, JSObject.get]
  | cons e rest ih =>
    obtain ⟨k', v'⟩ := e
    by_cases h : k' = k
    · simp [JSObject.set, JSObject.get, h]
    · simp [JSObject.set, JSObject.get, h, ih]

theorem JSObject.get_set_other {α : Type} (obj : JSObject α) (k k' : JSString) (v : α)
    (h : k ≠ k') : (obj.set k v).get k' = obj.get k' := by
  induction obj with
  | nil => simp [JSObject.set, JSObject.get, h]
  | cons e rest ih =>
    obtain ⟨k0, v0⟩ := e
    by_cases h0 : k0 = k
    · subst h0; simp [JSObject.set, JSObject.get, h]
    · by_cases h1 : k0 = k'
      · subst h1; simp [JSObject.set, JSObject.get, h0]
      · simp [JSObject.set, JSObject.get, h0, h1, ih]

theorem JSObject.keys_set_of_mem {α : Type} (obj : JSObject α) (k : JSString) (v : α)
    (h : k ∈ obj.keys) : (obj.set k v).keys = obj.keys := by
  induction obj with
  | nil => simp [JSObject.keys] at h
  | cons e rest ih =>
    obtain ⟨k0, v0⟩ := e
    by_cases h0 : k0 = k
    · simp [JSObject.set, JSObject.keys, h0]
    · have hr : k ∈ JSObject.keys rest := by
        simp only [JSObject.keys, List.map_cons, List.mem_cons] at h
        rcases h with h | h
        · exact absurd h.symm h0
        · exact h
      have := ih hr
      simp only [JSObject.keys] at this
      simp [JSObject.set, JSObject.keys, h0, this]

theorem JSObject.set_of_not_mem {α : Type} (obj : JSObject α) (k : JSString) (v : α)
    (h : k ∉ obj.keys) : obj.set k v = obj ++ [(k, v)] := by
  induction obj with
  | nil => simp [JSObject.set]
  | cons e rest ih =>
    obtain ⟨k0, v0⟩ := e
    simp only [JSObject.keys, List.map_cons, List.mem_cons, not_or] at h
    have h0 : ¬ k0 = k := fun e => h.1 e.symm
    have := ih h.2
    simp [JSObject.set, h0, this]

theorem JSObject.get_eq_none_iff {α : Type} (obj : JSObject α) (k : JSString) :
    obj.get k = none ↔ k ∉ obj.keys := by
  induction obj with
  | nil => simp [JSObject.get, JSObject.keys]
  | cons e rest ih =>
    obtain ⟨k0, v0⟩ := e
    by_cases h0 : k0 = k
    · simp [JSObject.get, JSObject.keys, h0]
    · have h1 : ¬ k = k0 := fun e => h0 e.symm
      simp only [JSObject.keys] at ih
      simp [JSObject.get, JSObject.keys, h0, h1, ih]

theorem JSObject.get_of_mem {α : Type} (obj : JSObject α) (k : JSString) (v : α)
    (hnd : obj.keys.Nodup) (h : (k, v) ∈ obj) : obj.get k = some v := by
  induction obj with
  | nil => simp at h
  | cons e rest ih =>
    obtain ⟨k0, v0⟩ := e
    simp only [JSObject.keys, List.map_cons, List.nodup_cons] at hnd
    rcases List.mem_cons.1 h with h | h
    · cases h; simp [JSObject.get]
    · have hk : k ∈ rest.map Prod.fst := List.mem_map.2 ⟨(k, v), h, rfl⟩
      have h0 : ¬ k0 = k := fun e => hnd.1 (e ▸ hk)
      simp [JSObject.get, h0, ih hnd.2 h]

theorem JSObject.mem_of_get {α : Type} (obj : JSObject α) (k : JSString) (v : α)
    (h : obj.get k = some v) : (k, v) ∈ obj := by
  induction obj with
  | nil => simp [JSObject.get] at h
  | cons e rest ih =>
    obtain ⟨k0, v0⟩ := e
    by_cases h0 : k0 = k
    · simp [JSObject.get, h0] at h; simp [h0, h]
    · simp [JSObject.get, h0] at h; exact List.mem_cons_of_mem _ (ih h)

/-! ## The frequency table -/

theorem countFrequencies_eq (text : JSString) :
    countFrequencies text = (stringIterator text).foldl tally [] := rfl

theorem tally_keys_nodup (fr : JSObject Nat) (c : JSString) (h : fr.keys.Nodup) :
    (tally fr c).keys.Nodup := by
  unfold tally
  by_cases hc : c ∈ fr.keys
  · rw [JSObject.keys_set_of_mem _ _ _ hc]; exact h
  · rw [JSObject.set_of_not_mem _ _ _ hc]
    simp only [JSObject.keys, List.map_append, List.map_cons, List.map_nil]
    simp only [JSObject.keys] at h hc
    exact List.Nodup.append h (List.nodup_singleton c) (by simpa using hc)

theorem tally_mem_keys (fr : JSObject Nat) (c k : JSString) :
    k ∈ (tally fr c).keys ↔ k ∈ fr.keys ∨ k = c := by
  unfold tally
  by_cases hc : c ∈ fr.keys
  · rw [JSObject.keys_set_of_mem _ _ _ hc]
    constructor
    · exact Or.inl
    · rintro (h | h)
      · exact h
      · exact h ▸ hc
  · rw [JSObject.set_of_not_mem _ _ _ hc]
    simp [JSObject.keys]

theorem tally_get (fr : JSObject Nat) (c k : JSString) :
    ((tally fr c).get k).getD 0 = (fr.get k).getD 0 + (if c = k then 1 else 0) := by
  unfold tally
  by_cases hc : c = k
  · subst hc; simp [JSObject.get_set_self]
  · simp [JSObject.get_set_other _ _ _ _ hc, hc]

theorem foldl_tally (l : List JSString) :
    ∀ fr : JSObject Nat, fr.keys.Nodup →
      (l.foldl tally fr).keys.Nodup ∧
      (∀ k, k ∈ (l.foldl tally fr).keys ↔ k ∈ fr.keys ∨ k ∈ l) ∧
      (∀ k, ((l.foldl tally fr).get k).getD 0 = (fr.get k).getD 0 + l.count k) := by
  induction l with
  | nil => intro fr h; simp [h]
  | cons c rest ih =>
    intro fr h
    obtain ⟨h1, h2, h3⟩ := ih (tally fr c) (tally_keys_nodup fr c h)
    refine ⟨h1, ?_, ?_⟩
    · intro k
      rw [List.foldl_cons, h2 k, tally_mem_keys, List.mem_cons]
      tauto
    · intro k
      rw [List.foldl_cons, h3 k, tally_get, List.count_cons]
      by_cases hc : c = k
      · simp [hc]; omega
      · simp [hc]

theorem countFrequencies_nodup (text : JSString) : (countFrequencies text).keys.Nodup :=
  (foldl_tally (stringIterator text) [] (by simp [JSObject.keys])).1

theorem mem_countFrequencies_keys (text : JSString) (k : JSString) :
    k ∈ (countFrequencies text).keys ↔ k ∈ stringIterator text := by
  have := (foldl_tally (stringIterator text) [] (by simp [JSObject.keys])).2.1 k
  rw [countFrequencies_eq, this]; simp [JSObject.keys]

theorem countFrequencies_entry (text : JSString) (k : JSString) (n : Nat)
    (h : (k, n) ∈ countFrequencies text) : n = (stringIterator text).count k := by
  have hg := JSObject.get_of_mem _ k n (countFrequencies_nodup text) h
  have := (foldl_tally (stringIterator text) [] (by simp [JSObject.keys])).2.2 k
  rw [← countFrequencies_eq, hg] at this
  simpa [JSObject.get] using this

theorem countFrequencies_pos (text : JSString) (k : JSString) (n : Nat)
    (h : (k, n) ∈ countFrequencies text) : 0 < n := by
  rw [countFrequencies_entry text k n h]
  have hk : k ∈ (countFrequencies text).keys := List.mem_map.2 ⟨(k, n), h, rfl⟩
  exact List.count_pos_iff.2 ((mem_countFrequencies_keys text k).1 hk)

theorem forInEntries_perm {α : Type} (obj : JSObject α) : (forInEntries obj).Perm obj := by
  unfold forInEntries
  refine (List.Perm.append_right _ (List.perm_insertionSort _ _)).trans ?_
  exact List.filter_append_perm _ obj

/-! ## Trees: leaves, node counts, the merge rule -/

namespace HuffmanNode

theorem mergeRule_iff (t : HuffmanNode) : t.mergeRule ↔ ∀ n ∈ t.subtrees, mergedHere n := by
  induction t with
  | leaf c f => simp [mergeRule, subtrees, mergedHere, isLeaf]
  | node f l r ihl ihr =>
    simp only [mergeRule, subtrees, List.mem_cons, List.mem_append, ihl, ihr]
    constructor
    · rintro ⟨h1, h2, h3, h4⟩ n (hn | hn | hn)
      · subst hn; intro _; exact ⟨l, r, rfl, rfl, h1, h2⟩
      · exact h3 n hn
      · exact h4 n hn
    · intro h
      obtain ⟨l', r', hl, hr, h1, h2⟩ := h _ (Or.inl rfl) rfl
      simp only [left, right, Option.some.injEq] at hl hr
      subst hl hr
      exact ⟨h1, h2, fun n hn => h n (Or.inr (Or.inl hn)), fun n hn => h n (Or.inr (Or.inr hn))⟩

theorem leafCount_eq_length (t : HuffmanNode) : t.leafCount = t.leaves.length := by
  induction t with
  | leaf c f => rfl
  | node f l r ihl ihr => simp [leafCount, leaves, ihl, ihr]

theorem internalCount_succ (t : HuffmanNode) : t.internalCount + 1 = t.leafCount := by
  induction t with
  | leaf c f => rfl
  | node f l r ihl ihr => simp only [internalCount, leafCount]; omega

theorem leaves_ne_nil (t : HuffmanNode) : t.leaves ≠ [] := by
  induction t with
  | leaf c f => simp [leaves]
  | node f l r ihl _ => simp [leaves, ihl]

theorem isLeaf_iff (t : HuffmanNode) : t.isLeaf = true ↔ ∃ c f, t = leaf c f := by
  cases t <;> simp [isLeaf]

end HuffmanNode

/-! ## The pool and the loop -/

theorem sortNodes_perm (nodes : List HuffmanNode) : (sortNodes nodes).Perm nodes :=
  List.perm_insertionSort _ _

theorem sortNodes_sorted (nodes : List HuffmanNode) : (sortNodes nodes).Sorted freqLE :=
  List.sorted_insertionSort _ _

theorem sortNodes_length (nodes : List HuffmanNode) : (sortNodes nodes).length = nodes.length :=
  (sortNodes_perm nodes).length_eq

/-- Under the loop guard the two `shift()` calls succeed. -/
theorem mergeStep_cases (nodes : List HuffmanNode) (h : 1 < nodes.length) :
    ∃ l r rest, sortNodes nodes = l :: r :: rest ∧
      mergeStep nodes = rest ++ [node (l.freq + r.freq) l r] := by
  have hlen := sortNodes_length nodes
  unfold mergeStep
  rcases hs : sortNodes nodes with _ | ⟨l, _ | ⟨r, rest⟩⟩
  · rw [hs] at hlen; simp at hlen; omega
  · rw [hs] at hlen; simp at hlen; omega
  · exact ⟨l, r, rest, rfl, rfl⟩

theorem mergeStep_length (nodes : List HuffmanNode) (h : 1 < nodes.length) :
    (mergeStep nodes).length + 1 = nodes.length := by
  obtain ⟨l, r, rest, hs, hm⟩ := mergeStep_cases nodes h
  have hlen := sortNodes_length nodes
  rw [hs] at hlen
  rw [hm]; simp at hlen ⊢; omega

/-- The loop ends with exactly one node whenever it starts from a non-empty pool and is given
at least `nodes.length - 1` passes, and it carries every invariant of the loop body. -/
theorem whileLoop_spec (P : List HuffmanNode → Prop)
    (hP : ∀ ns, 1 < ns.length → P ns → P (mergeStep ns)) :
    ∀ fuel ns, ns.length ≤ fuel + 1 → ns ≠ [] → P ns → ∃ t, whileLoop fuel ns = [t] ∧ P [t] := by
  intro fuel
  induction fuel with
  | zero =>
    intro ns hlen hne hp
    rcases ns with _ | ⟨t, _ | ⟨u, rest⟩⟩
    · exact absurd rfl hne
    · exact ⟨t, rfl, hp⟩
    · simp at hlen
  | succ fuel ih =>
    intro ns hlen hne hp
    by_cases h1 : 1 < ns.length
    · have hl := mergeStep_length ns h1
      have hne2 : mergeStep ns ≠ [] := by
        obtain ⟨l, r, rest, _, hm⟩ := mergeStep_cases ns h1
        rw [hm]; simp
      obtain ⟨t, ht, hpt⟩ := ih (mergeStep ns) (by omega) hne2 (hP ns h1 hp)
      exact ⟨t, by simp [whileLoop, h1, ht], hpt⟩
    · rcases ns with _ | ⟨t, _ | ⟨u, rest⟩⟩
      · exact absurd rfl hne
      · exact ⟨t, by simp [whileLoop], hp⟩
      · simp at h1

/-- Extra passes change nothing: once `nodes.length - 1` passes are allowed, the result
does not depend on the bound. -/
theorem whileLoop_fuel (fuel : Nat) :
    ∀ (fuel' : Nat) (ns : List HuffmanNode), ns.length ≤ fuel + 1 → ns.length ≤ fuel' + 1 →
      whileLoop fuel ns = whileLoop fuel' ns := by
  induction fuel with
  | zero =>
    intro fuel' ns hlen _
    rcases ns with _ | ⟨t, _ | ⟨u, rest⟩⟩
    · cases fuel' <;> simp [whileLoop]
    · cases fuel' <;> simp [whileLoop]
    · simp at hlen
  | succ fuel ih =>
    intro fuel' ns hlen hlen'
    by_cases h1 : 1 < ns.length
    · have hl := mergeStep_length ns h1
      obtain ⟨m, hm⟩ : ∃ m, fuel' = m + 1 := ⟨fuel' - 1, by omega⟩
      subst hm
      simp only [whileLoop, h1, if_true]
      exact ih m (mergeStep ns) (by omega) (by omega)
    · cases fuel' <;> simp [whileLoop, h1]

theorem poolLeaves_perm {a b : List HuffmanNode} (h : a.Perm b) :
    (poolLeaves a).Perm (poolLeaves b) := (h.map _).flatten

theorem poolLeaves_mergeStep (ns : List HuffmanNode) (h : 1 < ns.length) :
    (poolLeaves (mergeStep ns)).Perm (poolLeaves ns) := by
  obtain ⟨l, r, rest, hs, hm⟩ := mergeStep_cases ns h
  have h1 : (poolLeaves (l :: r :: rest)).Perm (poolLeaves ns) :=
    poolLeaves_perm (hs ▸ sortNodes_perm ns)
  refine List.Perm.trans ?_ h1
  rw [hm]
  simp only [poolLeaves, List.map_append, List.map_cons, List.map_nil, List.flatten_append,
    List.flatten_cons, List.flatten_nil, List.append_nil, leaves]
  rw [← List.append_assoc l.leaves]
  exact List.perm_append_comm

theorem mergeStep_mergeRule (ns : List HuffmanNode) (h : 1 < ns.length)
    (hmr : ∀ t ∈ ns, t.mergeRule) : ∀ t ∈ mergeStep ns, t.mergeRule := by
  obtain ⟨l, r, rest, hs, hm⟩ := mergeStep_cases ns h
  have hsorted := sortNodes_sorted ns
  rw [hs] at hsorted
  have hlr : l.freq ≤ r.freq := (List.sorted_cons.1 hsorted).1 r (List.mem_cons_self _ _)
  have hmem : ∀ t ∈ l :: r :: rest, t.mergeRule := fun t ht =>
    hmr t ((sortNodes_perm ns).subset (hs ▸ ht))
  intro t ht
  rw [hm] at ht
  rcases List.mem_append.1 ht with ht | ht
  · exact hmem t (List.mem_cons_of_mem _ (List.mem_cons_of_mem _ ht))
  · rw [List.mem_singleton] at ht
    subst ht
    exact ⟨rfl, hlr, hmem l (List.mem_cons_self _ _),
      hmem r (List.mem_cons_of_mem _ (List.mem_cons_self _ _))⟩

/-- The loop, started on a non-empty pool, leaves one tree; its leaves are the leaves of the
pool and it obeys the merge rule if the pool did. -/
theorem whileLoop_tree (ns : List HuffmanNode) (hne : ns ≠ []) (hmr : ∀ t ∈ ns, t.mergeRule) :
    ∃ t, whileLoop ns.length ns = [t] ∧ t.leaves.Perm (poolLeaves ns) ∧ t.mergeRule := by
  obtain ⟨t, ht, hp1, hp2⟩ := whileLoop_spec
    (fun ns' => (poolLeaves ns').Perm (poolLeaves ns) ∧ ∀ t ∈ ns', t.mergeRule)
    (fun ns' h1 hp => ⟨(poolLeaves_mergeStep ns' h1).trans hp.1, mergeStep_mergeRule ns' h1 hp.2⟩)
    ns.length ns (by omega) hne ⟨List.Perm.refl _, hmr⟩
  refine ⟨t, ht, ?_, hp2 t (List.mem_singleton_self t)⟩
  simpa [poolLeaves] using hp1

theorem poolLeaves_initialNodes (fr : JSObject Nat) :
    poolLeaves (initialNodes fr) = forInEntries fr := by
  unfold poolLeaves initialNodes
  induction forInEntries fr with
  | nil => rfl
  | cons e rest ih => simp only [List.map_cons, List.flatten_cons, leaves, ih]; rfl

theorem initialNodes_mergeRule (fr : JSObject Nat) : ∀ t ∈ initialNodes fr, t.mergeRule := by
  intro t ht
  obtain ⟨e, _, rfl⟩ := List.mem_map.1 ht
  trivial

/-! ## The string iterator -/

theorem iterFrom_some_ne_nil (h : Nat) (text : JSString) : iterFrom (some h) text ≠ [] := by
  cases text with
  | nil => simp [iterFrom]
  | cons u rest =>
    simp only [iterFrom]
    split_ifs <;> simp

theorem stringIterator_ne_nil (text : JSString) (h : text ≠ []) : stringIterator text ≠ [] := by
  cases text with
  | nil => exact absurd rfl h
  | cons u rest =>
    simp only [stringIterator, iterFrom]
    split_ifs
    · exact iterFrom_some_ne_nil u rest
    · simp

theorem countFrequencies_ne_nil (text : JSString) (h : text ≠ []) :
    countFrequencies text ≠ [] := by
  obtain ⟨c, hc⟩ := List.exists_mem_of_ne_nil _ (stringIterator_ne_nil text h)
  have := (mem_countFrequencies_keys text c).2 hc
  intro h0
  rw [h0] at this
  simp [JSObject.keys] at this

/-- For a non-empty text the loop ends and `treeRoot` is a tree whose leaves are exactly the
entries of the frequency table. -/
theorem buildTree_spec (text : JSString) (h : text ≠ []) :
    ∃ t, buildTree text = some t ∧ t.leaves.Perm (countFrequencies text) ∧ t.mergeRule := by
  have hne : initialNodes (countFrequencies text) ≠ [] := by
    intro h0
    have hp := poolLeaves_initialNodes (countFrequencies text)
    rw [h0] at hp
    have := (forInEntries_perm (countFrequencies text)).length_eq
    rw [← hp] at this
    exact countFrequencies_ne_nil text h (List.length_eq_zero.1 (by simpa [poolLeaves] using this.symm))
  obtain ⟨t, ht, hl, hmr⟩ := whileLoop_tree _ hne (initialNodes_mergeRule _)
  refine ⟨t, by simp [buildTree, ht], ?_, hmr⟩
  rw [poolLeaves_initialNodes] at hl
  exact hl.trans (forInEntries_perm _)

theorem buildTree_nil : buildTree [] = none := by decide

/-! ## The code table -/

theorem assignAll_append (tbl l₁ l₂ : JSObject JSString) :
    assignAll tbl (l₁ ++ l₂) = assignAll (assignAll tbl l₁) l₂ := by
  simp [assignAll, List.foldl_append]

theorem generateCodesRecursive_eq (t : HuffmanNode) :
    ∀ cur tbl, generateCodesRecursive t cur tbl = assignAll tbl (codeList t cur) := by
  induction t with
  | leaf c f => intro cur tbl; simp [generateCodesRecursive, codeList, assignAll]
  | node f l r ihl ihr =>
    intro cur tbl
    simp only [generateCodesRecursive, codeList, assignAll_append, ihl, ihr]

theorem assignAll_of_nodup (l : JSObject JSString) :
    ∀ tbl : JSObject JSString, (tbl.keys ++ l.keys).Nodup → assignAll tbl l = tbl ++ l := by
  induction l with
  | nil => intro tbl _; simp [assignAll]
  | cons e rest ih =>
    intro tbl h
    have hk : e.1 ∉ tbl.keys := by
      intro hmem
      have := List.nodup_append.1 h
      exact this.2.2 hmem (by simp [JSObject.keys])
    have hstep : assignAll tbl (e :: rest) = assignAll (tbl ++ [e]) rest := by
      simp only [assignAll, List.foldl_cons]
      rw [JSObject.set_of_not_mem _ _ _ hk]
    rw [hstep, ih (tbl ++ [e])]
    · simp
    · simpa [JSObject.keys] using h

theorem codeList_keys (t : HuffmanNode) : ∀ cur, (codeList t cur).keys = t.leaves.keys := by
  induction t with
  | leaf c f => intro cur; simp [codeList, leaves, JSObject.keys]
  | node f l r ihl ihr =>
    intro cur
    have h1 := ihl (cur ++ [zero])
    have h2 := ihr (cur ++ [one])
    simp only [JSObject.keys] at h1 h2 ⊢
    simp [codeList, leaves, h1, h2]

theorem generateCodes_eq (t : HuffmanNode) (hnd : t.leaves.keys.Nodup) :
    generateCodes (some t) = codeList t [] := by
  have key : ∀ cur, generateCodesRecursive t cur [] = codeList t cur := by
    intro cur
    rw [generateCodesRecursive_eq, assignAll_of_nodup]
    · simp
    · rw [codeList_keys]; simpa [JSObject.keys] using hnd
  unfold generateCodes
  cases t with
  | leaf c f => simp [isLeaf, key, codeList, zero]
  | node f l r => simp [isLeaf, key]

theorem walk_append (p q : JSString) :
    ∀ t, walk (p ++ q) t = (walk p t).bind (walk q) := by
  induction p with
  | nil => intro t; simp [walk]
  | cons b bs ih =>
    intro t
    simp only [List.cons_append, walk]
    split_ifs
    · cases t.left <;> simp [ih]
    · cases t.right <;> simp [ih]
    · rfl

/-- Every code written below a node extends the code accumulated so far. -/
theorem codeList_extends (t : HuffmanNode) :
    ∀ cur e, e ∈ codeList t cur → cur <+: e.2 := by
  induction t with
  | leaf c f =>
    intro cur e he
    simp only [codeList, List.mem_singleton] at he
    subst he
    by_cases h : cur = []
    · simp [h]
    · simp [h]
  | node f l r ihl ihr =>
    intro cur e he
    simp only [codeList, List.mem_append] at he
    rcases he with he | he
    · exact (List.prefix_append cur [zero]).trans (ihl _ e he)
    · exact (List.prefix_append cur [one]).trans (ihr _ e he)

theorem zero_ne_one : zero ≠ one := by decide

/-- The codes written by one traversal are pairwise incomparable. -/
theorem codeList_pairwise (t : HuffmanNode) :
    ∀ cur, (codeList t cur).Pairwise (fun x y => ¬ x.2 <+: y.2 ∧ ¬ y.2 <+: x.2) := by
  induction t with
  | leaf c f => intro cur; simp [codeList]
  | node f l r ihl ihr =>
    intro cur
    simp only [codeList]
    refine List.pairwise_append.2 ⟨ihl _, ihr _, ?_⟩
    intro x hx y hy
    have h0 := codeList_extends l _ x hx
    have h1 := codeList_extends r _ y hy
    have hne : cur ++ [zero] ≠ cur ++ [one] := by
      intro h; exact zero_ne_one (by simpa using h)
    constructor
    · intro hxy
      have h0y := h0.trans hxy
      have := List.prefix_of_prefix_length_le h0y h1 (by simp)
      exact hne (this.eq_of_length (by simp))
    · intro hyx
      have h1x := h1.trans hyx
      have := List.prefix_of_prefix_length_le h0 h1x (by simp)
      exact hne (this.eq_of_length (by simp))

/-- Below an internal root, or with a non-empty accumulated code, each written code is the
accumulated code followed by the path from the node to the leaf of its symbol. -/
theorem codeList_walk (t : HuffmanNode) :
    ∀ cur e, e ∈ codeList t cur → (t.isLeaf = false ∨ cur ≠ []) →
      ∃ p f, e.2 = cur ++ p ∧ walk p t = some (leaf e.1 f) ∧ (e.1, f) ∈ t.leaves := by
  induction t with
  | leaf c f =>
    intro cur e he h
    simp only [codeList, List.mem_singleton] at he
    subst he
    have hc : cur ≠ [] := by simpa [isLeaf] using h
    exact ⟨[], f, by simp [hc], rfl, by simp [leaves]⟩
  | node f l r ihl ihr =>
    intro cur e he _
    simp only [codeList, List.mem_append] at he
    rcases he with he | he
    · obtain ⟨p, g, h1, h2, h3⟩ := ihl _ e he (Or.inr (by simp))
      exact ⟨zero :: p, g, by simp [h1], by simp [walk, left, h2], by simp [leaves, h3]⟩
    · obtain ⟨p, g, h1, h2, h3⟩ := ihr _ e he (Or.inr (by simp))
      refine ⟨one :: p, g, by simp [h1], ?_, by simp [leaves, h3]⟩
      simp [walk, right, h2, zero_ne_one.symm]

theorem codeList_ne_nil (t : HuffmanNode) (cur : JSString) (e : JSString × JSString)
    (he : e ∈ codeList t cur) : e.2 ≠ [] := by
  cases t with
  | leaf c f =>
    simp only [codeList, List.mem_singleton] at he
    subst he
    by_cases h : cur = []
    · simp [h]
    · simp [h]
  | node f l r =>
    simp only [codeList, List.mem_append] at he
    intro h0
    rcases he with he | he
    · have := codeList_extends l _ e he
      rw [h0] at this
      simp at this
    · have := codeList_extends r _ e he
      rw [h0] at this
      simp at this

/-! ## The result of `huffmanEncode` -/

theorem leaves_keys_nodup (text : JSString) (t : HuffmanNode)
    (h : t.leaves.Perm (countFrequencies text)) : t.leaves.keys.Nodup :=
  ((h.map Prod.fst).nodup_iff).2 (countFrequencies_nodup text)

/-- Shape of the result on a non-empty text. -/
theorem huffmanEncode_spec (text : JSString) (h : text ≠ []) :
    ∃ t, (huffmanEncode text).tree = some t ∧ (huffmanEncode text).codes = codeList t [] ∧
      t.leaves.Perm (countFrequencies text) ∧ t.mergeRule ∧
      (huffmanEncode text).stats.originalBits = text.length * 8 ∧
      (huffmanEncode text).stats.encodedBits = countEncodedBits (codeList t []) text := by
  obtain ⟨t, ht, hl, hmr⟩ := buildTree_spec text h
  have hc := generateCodes_eq t (leaves_keys_nodup text t hl)
  refine ⟨t, ?_, ?_, hl, hmr, ?_, ?_⟩ <;> simp [huffmanEncode, h, ht, hc]

theorem huffmanEncode_nil : huffmanEncode [] = ⟨[], none, ⟨none, 0, 0, 0⟩⟩ := rfl

theorem codes_keys_perm (text : JSString) :
    (huffmanEncode text).codes.keys.Perm (countFrequencies text).keys := by
  by_cases h : text = []
  · subst h; rw [huffmanEncode_nil]; rfl
  · obtain ⟨t, _, hc, hl, _⟩ := huffmanEncode_spec text h
    rw [hc, codeList_keys]
    exact hl.map _

theorem codes_keys_nodup (text : JSString) : (huffmanEncode text).codes.keys.Nodup :=
  ((codes_keys_perm text).nodup_iff).2 (countFrequencies_nodup text)

theorem mem_codes_keys (text : JSString) (s : JSString) :
    s ∈ (huffmanEncode text).codes.keys ↔ s ∈ stringIterator text := by
  rw [(codes_keys_perm text).mem_iff, mem_countFrequencies_keys]

theorem keys_perm_distinctSymbols (text : JSString) :
    (countFrequencies text).keys.Perm (distinctSymbols text) := by
  refine (List.perm_ext_iff_of_nodup (countFrequencies_nodup text) (List.nodup_dedup _)).2 ?_
  intro s
  rw [mem_countFrequencies_keys, List.mem_dedup]

theorem distinctSymbols_eq_nil (text : JSString) : distinctSymbols text = [] ↔ text = [] := by
  constructor
  · intro h
    by_contra hne
    obtain ⟨c, hc⟩ := List.exists_mem_of_ne_nil _ (stringIterator_ne_nil text hne)
    have : c ∈ distinctSymbols text := List.mem_dedup.2 hc
    rw [h] at this
    simp at this
  · intro h; subst h; rfl

theorem countEncodedBits_eq (codes : JSObject JSString) (text : JSString) :
    countEncodedBits codes text
      = ((stringIterator text).map (fun s => ((codes.get s).getD []).length)).sum := by
  unfold countEncodedBits
  have key : ∀ (l : List JSString) (acc : Nat),
      l.foldl (fun encodedBits char =>
          match codes.get char with
          | some code => if code ≠ [] then encodedBits + code.length else encodedBits
          | none => encodedBits) acc
        = acc + (l.map (fun s => ((codes.get s).getD []).length)).sum := by
    intro l
    induction l with
    | nil => intro acc; simp
    | cons c rest ih =>
      intro acc
      rw [List.foldl_cons, ih]
      cases hg : codes.get c with
      | none => simp [hg]
      | some code =>
        by_cases hc : code = []
        · simp [hg, hc]
        · simp [hg, hc, Nat.add_assoc]
  simpa using key (stringIterator text) 0

theorem codes_get_of_mem (text : JSString) (s : JSString) (hs : s ∈ stringIterator text) :
    ∃ code, (huffmanEncode text).codes.get s = some code ∧ code ≠ [] := by
  have hne : text ≠ [] := by
    intro h; subst h; simp [stringIterator, iterFrom] at hs
  have hk := (mem_codes_keys text s).2 hs
  cases hg : (huffmanEncode text).codes.get s with
  | none => exact absurd hk ((JSObject.get_eq_none_iff _ _).1 hg)
  | some code =>
    refine ⟨code, rfl, ?_⟩
    have hm := JSObject.mem_of_get _ _ _ hg
    obtain ⟨t, _, hc, _⟩ := huffmanEncode_spec text hne
    rw [hc] at hm
    exact codeList_ne_nil t [] _ hm

theorem encodedBits_eq_sum (text : JSString) (hne : text ≠ []) :
    (huffmanEncode text).stats.encodedBits
      = ((stringIterator text).map
          (fun s => (((huffmanEncode text).codes.get s).getD []).length)).sum := by
  obtain ⟨t, _, hc, _, _, _, he⟩ := huffmanEncode_spec text hne
  rw [he, hc, countEncodedBits_eq]

/-! ## Properties of the encoder -/

/-- C1 (prefix-freedom): for two distinct symbols of the code table returned by
`huffmanEncode`, the code of the first is not a prefix of the code of the second. -/
theorem prefix_free (text : JSString) (a b ca cb : JSString)
    (ha : (huffmanEncode text).codes.get a = some ca)
    (hb : (huffmanEncode text).codes.get b = some cb) (hab : a ≠ b) : ¬ ca <+: cb := by
  have hne : text ≠ [] := by
    intro h; subst h; simp [huffmanEncode_nil, JSObject.get] at ha
  obtain ⟨t, _, hc, _⟩ := huffmanEncode_spec text hne
  rw [hc] at ha hb
  have hsymm : Symmetric (fun x y : JSString × JSString => ¬ x.2 <+: y.2 ∧ ¬ y.2 <+: x.2) :=
    fun _ _ h => ⟨h.2, h.1⟩
  have := (codeList_pairwise t []).forall hsymm (JSObject.mem_of_get _ _ _ ha)
    (JSObject.mem_of_get _ _ _ hb) (fun h => hab (congrArg Prod.fst h))
  exact this.1

theorem prefix_free_witness :
    (huffmanEncode [97, 98, 98]).codes.get [97] = some [48] ∧
    (huffmanEncode [97, 98, 98]).codes.get [98] = some [49] ∧ ¬ [48] <+: [49] :=
  ⟨by decide, by decide,
    prefix_free [97, 98, 98] [97] [98] [48] [49] (by decide) (by decide) (by decide)⟩

/-- C3 as stated fails: for the text `"a"` the table holds the code `"0"` for `a`, the tree is
the lone leaf of `a`, and walking left from a leaf finds no node. -/
theorem round_trip_single_symbol_fails : ¬ RoundTrip [97] := by
  intro h
  obtain ⟨root, f, hroot, hw⟩ := h [97] [48] (by decide)
  have hr : root = leaf [97] 1 := by
    have : (huffmanEncode [97]).tree = some (leaf [97] 1) := by decide
    rw [this] at hroot
    exact (Option.some.inj hroot).symm
  subst hr
  simp [walk, left, zero] at hw

/-- C3 (round trip, amended): when the text has at least two distinct symbols, the code of
every symbol of the table, walked from the root of the returned tree (left on `'0'`, right on
`'1'`), ends exactly at the leaf of that symbol. -/
theorem round_trip (text : JSString) (h2 : 2 ≤ (distinctSymbols text).length) :
    RoundTrip text := by
  have hne : text ≠ [] := by
    intro h; subst h; simp [distinctSymbols, stringIterator, iterFrom] at h2
  obtain ⟨t, ht, hc, hl, _⟩ := huffmanEncode_spec text hne
  intro s code hg
  rw [hc] at hg
  have hlen : t.leaves.length = (distinctSymbols text).length := by
    have h1 := (hl.map Prod.fst).length_eq
    have h2 := (keys_perm_distinctSymbols text).length_eq
    simp only [JSObject.keys, List.length_map] at h1 h2
    omega
  have hnl : t.isLeaf = false := by
    cases t with
    | leaf c f => simp [leaves] at hlen; omega
    | node f l r => rfl
  obtain ⟨p, f, hp, hw, _⟩ := codeList_walk t [] _ (JSObject.mem_of_get _ _ _ hg) (Or.inl hnl)
  simp only [List.nil_append] at hp
  exact ⟨t, f, ht, by rw [hp]; exact hw⟩

theorem round_trip_witness :
    2 ≤ (distinctSymbols [97, 98, 98]).length ∧ RoundTrip [97, 98, 98] :=
  ⟨by decide, round_trip [97, 98, 98] (by decide)⟩

/-- C4 (coverage): the keys of the code table returned by `huffmanEncode` are exactly the
symbols occurring in the text, each of them once. -/
theorem coverage (text : JSString) :
    (∀ s, s ∈ (huffmanEncode text).codes.keys ↔ s ∈ stringIterator text) ∧
    (huffmanEncode text).codes.keys.Nodup :=
  ⟨mem_codes_keys text, codes_keys_nodup text⟩

/-- C6 (empty input): on the empty text `huffmanEncode` returns an empty code table, no tree,
and `originalBits = 0`, `encodedBits = 0`, `ratio = 0`. -/
theorem empty_input :
    (huffmanEncode []).codes = [] ∧ (huffmanEncode []).tree = none ∧
    (huffmanEncode []).stats.originalBits = 0 ∧ (huffmanEncode []).stats.encodedBits = 0 ∧
    (huffmanEncode []).stats.ratio = 0 :=
  ⟨rfl, rfl, rfl, rfl, rfl⟩

/-- C8 (encoded size): on a non-empty text `encodedBits` is the sum, over the symbol
occurrences of the text, of the length of the code of the symbol in the returned table, and
every symbol of the text has a non-empty code there (the guard never skips an occurrence). -/
theorem encoded_size (text : JSString) (hne : text ≠ []) :
    (huffmanEncode text).stats.encodedBits
      = ((stringIterator text).map
          (fun s => (((huffmanEncode text).codes.get s).getD []).length)).sum ∧
    ∀ s ∈ stringIterator text,
      ∃ code, (huffmanEncode text).codes.get s = some code ∧ code ≠ [] := by
  exact ⟨encodedBits_eq_sum text hne, codes_get_of_mem text⟩

theorem encoded_size_witness :
    ([97, 98, 98] : JSString) ≠ [] ∧
    ((huffmanEncode [97, 98, 98]).stats.encodedBits
      = ((stringIterator [97, 98, 98]).map
          (fun s => (((huffmanEncode [97, 98, 98]).codes.get s).getD []).length)).sum ∧
    ∀ s ∈ stringIterator [97, 98, 98],
      ∃ code, (huffmanEncode [97, 98, 98]).codes.get s = some code ∧ code ≠ []) :=
  ⟨by decide, encoded_size [97, 98, 98] (by decide)⟩

/-- C9 (tree size): with `N` the number of distinct symbols of the text, the returned tree is
absent when `N = 0`, is a single leaf without internal nodes when `N = 1`, and has exactly
`N` leaves and `N - 1` internal nodes when `N > 1`. -/
theorem tree_size (text : JSString) :
    ((distinctSymbols text).length = 0 → (huffmanEncode text).tree = none) ∧
    ((distinctSymbols text).length = 1 →
      ∃ t, (huffmanEncode text).tree = some t ∧ t.isLeaf = true ∧ t.leafCount = 1 ∧
        t.internalCount = 0) ∧
    (1 < (distinctSymbols text).length →
      ∃ t, (huffmanEncode text).tree = some t ∧
        t.leafCount = (distinctSymbols text).length ∧
        t.internalCount = (distinctSymbols text).length - 1) := by
  by_cases hne : text = []
  · subst hne
    refine ⟨fun _ => rfl, fun h => ?_, fun h => ?_⟩ <;>
      simp [distinctSymbols, stringIterator, iterFrom] at h
  · obtain ⟨t, ht, _, hl, _⟩ := huffmanEncode_spec text hne
    have hlen : t.leafCount = (distinctSymbols text).length := by
      have h1 := (hl.map Prod.fst).length_eq
      have h2 := (keys_perm_distinctSymbols text).length_eq
      simp only [JSObject.keys, List.length_map] at h1 h2
      rw [leafCount_eq_length]; omega
    have hint := internalCount_succ t
    refine ⟨fun h => ?_, fun h => ⟨t, ht, ?_, by omega, by omega⟩, fun _ => ⟨t, ht, hlen, by omega⟩⟩
    · exact absurd ((distinctSymbols_eq_nil text).1 (List.length_eq_zero.1 h)) hne
    · cases t with
      | leaf c f => rfl
      | node f l r =>
        have h1 := internalCount_succ l
        have h2 := internalCount_succ r
        simp only [leafCount] at hlen
        omega

/-- C10 (merge rule): every internal node of the tree returned by `huffmanEncode` has two
children, carries the sum of their frequencies, and its left child is not heavier than its
right child. -/
theorem merge_rule (text : JSString) (t : HuffmanNode) (ht : (huffmanEncode text).tree = some t) :
    ∀ n ∈ t.subtrees, n.isLeaf = false →
      ∃ l r, n.left = some l ∧ n.right = some r ∧ n.freq = l.freq + r.freq ∧
        l.freq ≤ r.freq := by
  have hne : text ≠ [] := by
    intro h; subst h; simp [huffmanEncode_nil] at ht
  obtain ⟨t', ht', _, _, hmr, _⟩ := huffmanEncode_spec text hne
  rw [ht] at ht'
  cases ht'
  exact (mergeRule_iff t).1 hmr

theorem merge_rule_witness :
    (huffmanEncode [97, 98, 98]).tree = some (node 3 (leaf [97] 1) (leaf [98] 2)) ∧
    ∀ n ∈ (node 3 (leaf [97] 1) (leaf [98] 2)).subtrees, n.isLeaf = false →
      ∃ l r, n.left = some l ∧ n.right = some r ∧ n.freq = l.freq + r.freq ∧
        l.freq ≤ r.freq :=
  ⟨by decide, merge_rule [97, 98, 98] _ (by decide)⟩

theorem two_element_list {α : Type} (l : List α) (a b : α) (hab : a ≠ b) (hnd : l.Nodup)
    (hmem : ∀ x ∈ l, x = a ∨ x = b) (ha : a ∈ l) (hb : b ∈ l) : l = [a, b] ∨ l = [b, a] := by
  have hp : l.Perm [a, b] := by
    refine (List.perm_ext_iff_of_nodup hnd (by simp [hab])).2 ?_
    intro x
    constructor
    · intro hx; simpa using hmem x hx
    · intro hx
      simp only [List.mem_cons, List.mem_singleton, List.not_mem_nil, or_false] at hx
      rcases hx with rfl | rfl
      · exact ha
      · exact hb
  obtain ⟨x, y, rfl⟩ := List.length_eq_two.1 hp.length_eq
  have hxy : x ≠ y := by
    intro h; subst h; simp at hnd
  have hx := hmem x (by simp)
  have hy := hmem y (by simp)
  rcases hx with rfl | rfl <;> rcases hy with rfl | rfl
  · exact absurd rfl hxy
  · exact Or.inl rfl
  · exact Or.inr rfl
  · exact absurd rfl hxy

theorem length_eq_count_add_count (l : List JSString) (a b : JSString) (hab : a ≠ b)
    (hmem : ∀ x ∈ l, x = a ∨ x = b) : l.length = l.count a + l.count b := by
  induction l with
  | nil => simp
  | cons c rest ih =>
    have ih' := ih (fun x hx => hmem x (List.mem_cons_of_mem _ hx))
    rcases hmem c (List.mem_cons_self _ _) with rfl | rfl
    · simp [List.count_cons, hab, ih']; omega
    · simp [List.count_cons, hab.symm, ih']; omega

/-- The pool of a text made of two symbols with the same count. -/
theorem forInEntries_two_symbols (text : JSString) (a b : JSString) (k : Nat) (hab : a ≠ b)
    (hk : 1 ≤ k) (hmem : ∀ s ∈ stringIterator text, s = a ∨ s = b)
    (ha : (stringIterator text).count a = k) (hb : (stringIterator text).count b = k) :
    ∃ x y, ((x = a ∧ y = b) ∨ (x = b ∧ y = a)) ∧
      forInEntries (countFrequencies text) = [(x, k), (y, k)] := by
  have hperm := forInEntries_perm (countFrequencies text)
  have hnd : ((forInEntries (countFrequencies text)).map Prod.fst).Nodup :=
    ((hperm.map Prod.fst).nodup_iff).2 (countFrequencies_nodup text)
  have hin : ∀ s, s ∈ (forInEntries (countFrequencies text)).map Prod.fst ↔
      s ∈ stringIterator text := by
    intro s
    rw [(hperm.map Prod.fst).mem_iff]
    exact mem_countFrequencies_keys text s
  have hval : ∀ e ∈ forInEntries (countFrequencies text), e.2 = k := by
    intro e he
    have he' : (e.1, e.2) ∈ countFrequencies text := hperm.subset he
    have h1 := countFrequencies_entry text e.1 e.2 he'
    have h2 : e.1 ∈ stringIterator text := (hin e.1).1 (List.mem_map.2 ⟨e, he, rfl⟩)
    rcases hmem e.1 h2 with h | h
    · rw [h1, h, ha]
    · rw [h1, h, hb]
  have hain : a ∈ (forInEntries (countFrequencies text)).map Prod.fst :=
    (hin a).2 (List.count_pos_iff.1 (by omega))
  have hbin : b ∈ (forInEntries (countFrequencies text)).map Prod.fst :=
    (hin b).2 (List.count_pos_iff.1 (by omega))
  have hkeys := two_element_list _ a b hab hnd (fun x hx => hmem x ((hin x).1 hx)) hain hbin
  generalize forInEntries (countFrequencies text) = E at hkeys hval
  rcases hkeys with h | h
  · refine ⟨a, b, Or.inl ⟨rfl, rfl⟩, ?_⟩
    obtain ⟨e1, e2, rfl⟩ := List.length_eq_two.1 (by simpa using congrArg List.length h)
    have h1 := hval e1 (by simp)
    have h2 := hval e2 (by simp)
    simp only [List.map_cons, List.map_nil, List.cons.injEq, and_true] at h
    obtain ⟨x1, n1⟩ := e1
    obtain ⟨x2, n2⟩ := e2
    simp only at h h1 h2
    rw [h.1, h.2, h1, h2]
  · refine ⟨b, a, Or.inr ⟨rfl, rfl⟩, ?_⟩
    obtain ⟨e1, e2, rfl⟩ := List.length_eq_two.1 (by simpa using congrArg List.length h)
    have h1 := hval e1 (by simp)
    have h2 := hval e2 (by simp)
    simp only [List.map_cons, List.map_nil, List.cons.injEq, and_true] at h
    obtain ⟨x1, n1⟩ := e1
    obtain ⟨x2, n2⟩ := e2
    simp only at h h1 h2
    rw [h.1, h.2, h1, h2]

/-- C7 (two symbols of equal frequency): when the text is made of exactly two distinct
symbols `a` and `b`, each occurring `k ≥ 1` times, the returned tree is one internal root
whose children are the two leaves, one symbol has the code `"0"` and the other the code
`"1"`, and `encodedBits = 2 * k`. -/
theorem two_symbols_equal_frequency (text : JSString) (a b : JSString) (k : Nat)
    (hab : a ≠ b) (hk : 1 ≤ k) (hmem : ∀ s ∈ stringIterator text, s = a ∨ s = b)
    (ha : (stringIterator text).count a = k) (hb : (stringIterator text).count b = k) :
    ∃ x y, ((x = a ∧ y = b) ∨ (x = b ∧ y = a)) ∧
      (huffmanEncode text).tree = some (node (2 * k) (leaf x k) (leaf y k)) ∧
      (huffmanEncode text).codes.get x = some [zero] ∧
      (huffmanEncode text).codes.get y = some [one] ∧
      (huffmanEncode text).stats.encodedBits = 2 * k := by
  obtain ⟨x, y, hxy, hE⟩ := forInEntries_two_symbols text a b k hab hk hmem ha hb
  have hne : text ≠ [] := by
    intro h; subst h; simp [stringIterator, iterFrom] at ha; omega
  have hx_ne_y : x ≠ y := by
    rcases hxy with ⟨rfl, rfl⟩ | ⟨rfl, rfl⟩
    · exact hab
    · exact hab.symm
  have htree : buildTree text = some (node (2 * k) (leaf x k) (leaf y k)) := by
    simp [buildTree, initialNodes, hE, whileLoop, mergeStep, sortNodes, List.insertionSort,
      List.orderedInsert, freqLE, freq, two_mul]
  have hcodes : (huffmanEncode text).codes = [(x, [zero]), (y, [one])] := by
    simp [huffmanEncode, hne, htree, generateCodes, isLeaf, generateCodesRecursive,
      JSObject.set, hx_ne_y]
  refine ⟨x, y, hxy, by simp [huffmanEncode, hne, htree], ?_, ?_, ?_⟩
  · simp [hcodes, JSObject.get]
  · simp [hcodes, JSObject.get, hx_ne_y]
  · have hlen := encodedBits_eq_sum text hne
    rw [hlen, hcodes]
    have hone : ∀ s ∈ stringIterator text,
        ((JSObject.get [(x, [zero]), (y, [one])] s).getD []).length = 1 := by
      intro s hs
      have hs' : s = x ∨ s = y := by
        rcases hxy with ⟨rfl, rfl⟩ | ⟨rfl, rfl⟩
        · exact hmem s hs
        · exact (hmem s hs).symm
      rcases hs' with rfl | rfl
      · simp [JSObject.get]
      · simp [JSObject.get, hx_ne_y]
    rw [List.map_congr_left hone]
    simp only [List.map_const', List.sum_replicate, smul_eq_mul, mul_one]
    rw [length_eq_count_add_count _ a b hab hmem, ha, hb]; omega

theorem two_symbols_equal_frequency_witness :
    ∃ x y, ((x = [97] ∧ y = [98]) ∨ (x = [98] ∧ y = [97])) ∧
      (huffmanEncode [97, 98]).tree = some (node (2 * 1) (leaf x 1) (leaf y 1)) ∧
      (huffmanEncode [97, 98]).codes.get x = some [zero] ∧
      (huffmanEncode [97, 98]).codes.get y = some [one] ∧
      (huffmanEncode [97, 98]).stats.encodedBits = 2 * 1 :=
  two_symbols_equal_frequency [97, 98] [97] [98] 1 (by decide) (by decide) (by decide)
    (by decide) (by decide)

theorem iterFrom_flatten (text : JSString) :
    ∀ pending : Option Nat, (iterFrom pending text).flatten = pending.toList ++ text := by
  induction text with
  | nil => intro pending; cases pending <;> simp [iterFrom]
  | cons u rest ih =>
    intro pending
    cases pending with
    | none =>
      simp only [iterFrom]
      split_ifs <;> simp [ih]
    | some h =>
      simp only [iterFrom]
      split_ifs <;> simp [ih]

/-- The pieces delivered by the string iterator, put back together, are the text. -/
theorem stringIterator_flatten (text : JSString) : (stringIterator text).flatten = text := by
  simpa using iterFrom_flatten text none

/-- What `huffmanEncode` returns on a text made of `n ≥ 1` occurrences of one symbol `s`: the
table `{s: "0"}`, a lone leaf, `encodedBits = n`, and `originalBits` counted in UTF-16 code
units (`8 * n * s.length`). -/
theorem single_symbol (text : JSString) (s : JSString) (n : Nat) (hn : 1 ≤ n)
    (htext : stringIterator text = List.replicate n s) :
    (huffmanEncode text).codes = [(s, [zero])] ∧
    (huffmanEncode text).tree = some (leaf s n) ∧
    (huffmanEncode text).stats.encodedBits = n ∧
    (huffmanEncode text).stats.originalBits = 8 * (n * s.length) := by
  have hne : text ≠ [] := by
    intro h; subst h
    obtain ⟨m, rfl⟩ : ∃ m, n = m + 1 := ⟨n - 1, by omega⟩
    simp [stringIterator, iterFrom, List.replicate] at htext
  have hCF : countFrequencies text = [(s, n)] := by
    have hnd := countFrequencies_nodup text
    have hmem := mem_countFrequencies_keys text
    have hval := countFrequencies_entry text
    have hne' := countFrequencies_ne_nil text hne
    rw [htext] at hmem hval
    generalize countFrequencies text = CF at hnd hmem hval hne'
    rcases CF with _ | ⟨e, _ | ⟨e', rest⟩⟩
    · exact absurd rfl hne'
    · obtain ⟨k, v⟩ := e
      have hk : k = s := by
        have := (hmem k).1 (by simp [JSObject.keys])
        exact (List.mem_replicate.1 this).2
      subst hk
      have := hval k v (by simp)
      simp at this
      rw [this]
    · exfalso
      have h1 := (List.mem_replicate.1 ((hmem e.1).1 (by simp [JSObject.keys]))).2
      have h2 := (List.mem_replicate.1 ((hmem e'.1).1 (by simp [JSObject.keys]))).2
      simp [JSObject.keys, h1, h2] at hnd
  have hE : forInEntries (countFrequencies text) = [(s, n)] := by
    have := forInEntries_perm (countFrequencies text)
    rw [hCF] at this ⊢
    exact List.perm_singleton.1 this
  have htree : buildTree text = some (leaf s n) := by
    simp [buildTree, initialNodes, hE, whileLoop]
  have hcodes : (huffmanEncode text).codes = [(s, [zero])] := by
    simp [huffmanEncode, hne, htree, generateCodes, isLeaf, generateCodesRecursive,
      JSObject.set, zero]
  refine ⟨hcodes, by simp [huffmanEncode, hne, htree], ?_, ?_⟩
  · rw [encodedBits_eq_sum text hne, hcodes, htext]
    simp [JSObject.get]
  · have hlen : text.length = n * s.length := by
      have := congrArg List.length (stringIterator_flatten text)
      rw [htext] at this
      simpa [List.length_flatten] using this.symm
    simp [huffmanEncode, hne, hlen]; ring

theorem single_symbol_witness :
    (huffmanEncode [97, 97, 97, 97]).codes = [([97], [zero])] ∧
    (huffmanEncode [97, 97, 97, 97]).tree = some (leaf [97] 4) ∧
    (huffmanEncode [97, 97, 97, 97]).stats.encodedBits = 4 ∧
    (huffmanEncode [97, 97, 97, 97]).stats.originalBits = 8 * (4 * ([97] : JSString).length) :=
  single_symbol [97, 97, 97, 97] [97] 4 (by decide) (by decide)

theorem stats_ratio (text : JSString) (hne : text ≠ []) :
    (huffmanEncode text).stats.ratio
      = toFixed2 ((1 - ((huffmanEncode text).stats.encodedBits : ℚ)
          / ((huffmanEncode text).stats.originalBits : ℚ)) * 100) := by
  have hpos : 0 < text.length := List.length_pos.2 hne
  simp [huffmanEncode, hne, hpos]

/-- For a symbol that is a single UTF-16 code unit the figures of C5 hold: `originalBits` is
`8 * n` and the ratio is 87.5. -/
theorem single_symbol_one_unit (text : JSString) (s : JSString) (n : Nat) (hn : 1 ≤ n)
    (htext : stringIterator text = List.replicate n s) (hs : s.length = 1) :
    (huffmanEncode text).stats.originalBits = 8 * n ∧
    (huffmanEncode text).stats.ratio = 175 / 2 := by
  obtain ⟨_, _, he, ho⟩ := single_symbol text s n hn htext
  have hne : text ≠ [] := by
    intro h; subst h
    obtain ⟨m, rfl⟩ : ∃ m, n = m + 1 := ⟨n - 1, by omega⟩
    simp [stringIterator, iterFrom, List.replicate] at htext
  rw [hs, mul_one] at ho
  refine ⟨ho, ?_⟩
  rw [stats_ratio text hne, he, ho]
  have hn0 : (n : ℚ) ≠ 0 := by exact_mod_cast (by omega : n ≠ 0)
  have hval : (1 - (n : ℚ) / ((8 * n : ℕ) : ℚ)) * 100 = 175 / 2 := by
    push_cast; field_simp; ring
  rw [hval]
  unfold toFixed2
  have h : ⌊(175 / 2 : ℚ) * 100 + 1 / 2⌋ = 8750 := by
    rw [Int.floor_eq_iff]; norm_num
  rw [if_neg (by norm_num), h]; norm_num

/-- C5 at a symbol outside the Basic Multilingual Plane: the text made of one occurrence of
U+1F600 (the surrogate pair `D83D DE00`) is a single symbol with code `"0"` and
`encodedBits = 1`, but `text.length` is 2, so `originalBits` is 16 (not 8) and the ratio is
93.75 (not 87.5). -/
theorem single_symbol_astral :
    stringIterator [0xD83D, 0xDE00] = List.replicate 1 [0xD83D, 0xDE00] ∧
    (huffmanEncode [0xD83D, 0xDE00]).codes = [([0xD83D, 0xDE00], [zero])] ∧
    (huffmanEncode [0xD83D, 0xDE00]).stats.encodedBits = 1 ∧
    (huffmanEncode [0xD83D, 0xDE00]).stats.originalBits = 16 ∧
    (huffmanEncode [0xD83D, 0xDE00]).stats.ratio = 375 / 4 := by
  have h1 : (huffmanEncode [0xD83D, 0xDE00]).stats.encodedBits = 1 := by decide
  have h2 : (huffmanEncode [0xD83D, 0xDE00]).stats.originalBits = 16 := by decide
  refine ⟨by decide, by decide, h1, h2, ?_⟩
  rw [stats_ratio _ (by decide), h1, h2]
  unfold toFixed2
  have h : ⌊((1 - ((1 : ℕ) : ℚ) / ((16 : ℕ) : ℚ)) * 100) * 100 + 1 / 2⌋ = 9375 := by
    rw [Int.floor_eq_iff]; norm_num
  rw [if_neg (by norm_num), h]; norm_num

/-! ## Optimality: the cost of the merges -/

theorem mergeCost_of_sort (ws : List Nat) (a b : Nat) (rest : List Nat)
    (h : ws.insertionSort (· ≤ ·) = a :: b :: rest) :
    mergeCost ws = (a + b) + mergeCost (rest ++ [a + b]) := by
  rw [mergeCost]
  split
  · rename_i a' b' rest' h'
    rw [h] at h'
    cases h'
    rfl
  · rename_i hno
    exact absurd h (hno a b rest)

theorem mergeCost_short (ws : List Nat) (h : ws.length ≤ 1) : mergeCost ws = 0 := by
  rw [mergeCost]
  split
  · rename_i a' b' rest' h'
    have hl := (List.perm_insertionSort (· ≤ ·) ws).length_eq
    rw [h'] at hl
    simp at hl
    omega
  · rfl

theorem insertionSort_eq_of_perm {l₁ l₂ : List Nat} (h : l₁.Perm l₂) :
    l₁.insertionSort (· ≤ ·) = l₂.insertionSort (· ≤ ·) :=
  List.eq_of_perm_of_sorted
    (((List.perm_insertionSort _ l₁).trans h).trans (List.perm_insertionSort _ l₂).symm)
    (List.sorted_insertionSort _ _) (List.sorted_insertionSort _ _)

theorem mergeCost_perm {l₁ l₂ : List Nat} (h : l₁.Perm l₂) : mergeCost l₁ = mergeCost l₂ := by
  have hs := insertionSort_eq_of_perm h
  rcases hl : l₂.insertionSort (· ≤ ·) with _ | ⟨a, _ | ⟨b, rest⟩⟩
  · have h2 := (List.perm_insertionSort (· ≤ ·) l₂).length_eq
    rw [hl] at h2
    rw [mergeCost_short l₂ (by simp at h2; omega),
      mergeCost_short l₁ (by rw [h.length_eq]; simp at h2; omega)]
  · have h2 := (List.perm_insertionSort (· ≤ ·) l₂).length_eq
    rw [hl] at h2
    rw [mergeCost_short l₂ (by simp at h2; omega),
      mergeCost_short l₁ (by rw [h.length_eq]; simp at h2; omega)]
  · rw [mergeCost_of_sort l₂ a b rest hl, mergeCost_of_sort l₁ a b rest (hs.trans hl)]

/-! ## Optimality: weighted codes -/

theorem Incomparable.symm {x y : JSString} (h : Incomparable x y) : Incomparable y x :=
  ⟨h.2, h.1⟩

theorem cost_perm {l₁ l₂ : List (Nat × JSString)} (h : l₁.Perm l₂) : cost l₁ = cost l₂ :=
  (h.map _).sum_eq

theorem cost_cons (e : Nat × JSString) (l : List (Nat × JSString)) :
    cost (e :: l) = e.1 * e.2.length + cost l := by
  simp [cost]

theorem totalLength_eq (cw : List (Nat × JSString)) :
    totalLength cw = ((cw.map Prod.snd).map List.length).sum := by
  simp [totalLength, List.map_map, Function.comp_def]

theorem exists_longest (cw : List (Nat × JSString)) (h : cw ≠ []) :
    ∃ e ∈ cw, ∀ e' ∈ cw, e'.2.length ≤ e.2.length := by
  induction cw with
  | nil => exact absurd rfl h
  | cons a rest ih =>
    by_cases hr : rest = []
    · subst hr
      exact ⟨a, by simp, by simp⟩
    · obtain ⟨e, he, hmax⟩ := ih hr
      by_cases hle : e.2.length ≤ a.2.length
      · refine ⟨a, by simp, ?_⟩
        intro e' he'
        rcases List.mem_cons.1 he' with rfl | he'
        · exact le_refl _
        · exact (hmax e' he').trans hle
      · refine ⟨e, List.mem_cons_of_mem _ he, ?_⟩
        intro e' he'
        rcases List.mem_cons.1 he' with rfl | he'
        · omega
        · exact hmax e' he'

/-- If a longest codeword `p ++ [b]` is incomparable with `c`, and `c` is not its sibling,
then the parent `p` is incomparable with `c` as well. -/
theorem parent_incomparable (p : JSString) (b : Nat) (hb : b = zero ∨ b = one) (c : JSString)
    (hbin : Binary c) (hlen : c.length ≤ p.length + 1)
    (hq : Incomparable (p ++ [b]) c) (hsib : c ≠ p ++ [flipBit b]) : Incomparable p c := by
  constructor
  · rintro ⟨r, rfl⟩
    rcases r with _ | ⟨u, _ | ⟨v, r'⟩⟩
    · exact hq.2 (by simp)
    · have hu := hbin u (by simp)
      by_cases hub : u = b
      · subst hub; exact hq.1 (List.prefix_refl _)
      · apply hsib
        have : u = flipBit b := by
          unfold flipBit
          rcases hb with rfl | rfl <;> rcases hu with rfl | rfl
          · exact absurd rfl hub
          · simp
          · simp [zero_ne_one.symm]
          · exact absurd rfl hub
        rw [this]
    · simp at hlen
  · intro hcp
    exact hq.2 (hcp.trans (List.prefix_append _ _))

theorem exists_perm_cons {α : Type} {a : α} {l : List α} (h : a ∈ l) :
    ∃ r, l.Perm (a :: r) := by
  obtain ⟨s, t, rfl⟩ := List.append_of_mem h
  exact ⟨s ++ t, List.perm_middle⟩

/-- Exchange step: the lightest weight can be moved onto a longest codeword without
increasing the cost. -/
theorem swap_to_front (cw : List (Nat × JSString)) (w : Nat) (q : JSString)
    (hw : w ∈ cw.map Prod.fst) (hq : q ∈ cw.map Prod.snd)
    (hmin : ∀ e ∈ cw, w ≤ e.1) (hmax : ∀ e ∈ cw, e.2.length ≤ q.length) :
    ∃ rest : List (Nat × JSString), (w :: rest.map Prod.fst).Perm (cw.map Prod.fst) ∧
      (q :: rest.map Prod.snd).Perm (cw.map Prod.snd) ∧ cost ((w, q) :: rest) ≤ cost cw := by
  obtain ⟨e1, he1, hw1⟩ := List.mem_map.1 hw
  obtain ⟨e2, he2, hq2⟩ := List.mem_map.1 hq
  obtain ⟨r1, hp1⟩ := exists_perm_cons he1
  by_cases heq : e1 = e2
  · subst heq
    refine ⟨r1, ?_, ?_, ?_⟩
    · rw [← hw1]; exact (hp1.map Prod.fst).symm
    · rw [← hq2]; exact (hp1.map Prod.snd).symm
    · rw [cost_perm hp1, cost_cons, cost_cons, ← hw1, ← hq2]
  · have he2' : e2 ∈ r1 := by
      rcases List.mem_cons.1 (hp1.subset he2) with h | h
      · exact absurd h.symm heq
      · exact h
    obtain ⟨r2, hp2⟩ := exists_perm_cons he2'
    have hp : cw.Perm (e1 :: e2 :: r2) := hp1.trans (hp2.cons e1)
    refine ⟨(e2.1, e1.2) :: r2, ?_, ?_, ?_⟩
    · rw [← hw1]; exact (hp.map Prod.fst).symm
    · rw [← hq2]
      refine List.Perm.trans ?_ (hp.map Prod.snd).symm
      exact List.Perm.swap _ _ _
    · rw [cost_perm hp]
      simp only [cost_cons]
      have h1 : e1.1 ≤ e2.1 := hw1 ▸ hmin e2 he2
      have h2 : e1.2.length ≤ e2.2.length := hq2 ▸ hmax e1 he1
      rw [← hw1, ← hq2]
      obtain ⟨d, hd⟩ := Nat.exists_eq_add_of_le h1
      obtain ⟨k, hk⟩ := Nat.exists_eq_add_of_le h2
      rw [hd, hk]
      nlinarith [Nat.zero_le (d * k)]

theorem totalLength_perm {l₁ l₂ : List (Nat × JSString)} (h : l₁.Perm l₂) :
    totalLength l₁ = totalLength l₂ :=
  (h.map _).sum_eq

theorem totalLength_cons (e : Nat × JSString) (l : List (Nat × JSString)) :
    totalLength (e :: l) = e.2.length + totalLength l := by
  simp [totalLength]

theorem totalLength_of_snd_perm {l₁ l₂ : List (Nat × JSString)}
    (h : (l₁.map Prod.snd).Perm (l₂.map Prod.snd)) : totalLength l₁ = totalLength l₂ := by
  rw [totalLength_eq, totalLength_eq]
  exact (h.map _).sum_eq

/-- Lower bound: no list of weighted, pairwise incomparable binary codewords costs less than
the merges of the loop on the same weights. -/
theorem mergeCost_le_cost (n : Nat) :
    ∀ cw : List (Nat × JSString), totalLength cw ≤ n → (∀ e ∈ cw, Binary e.2) →
      (cw.map Prod.snd).Pairwise Incomparable → mergeCost (cw.map Prod.fst) ≤ cost cw := by
  induction n using Nat.strong_induction_on with
  | _ n ih =>
    intro cw hn hbin hpf
    by_cases hshort : cw.length ≤ 1
    · rw [mergeCost_short _ (by simpa using hshort)]; exact Nat.zero_le _
    have hlen2 : 2 ≤ cw.length := by omega
    have hne : cw ≠ [] := by intro h; simp [h] at hlen2
    obtain ⟨e0, he0, hmax⟩ := exists_longest cw hne
    obtain ⟨rest, hperm⟩ := exists_perm_cons he0
    have hpf1 : ((e0 :: rest).map Prod.snd).Pairwise Incomparable :=
      ((hperm.map Prod.snd).pairwise_iff Incomparable.symm).1 hpf
    rw [List.map_cons, List.pairwise_cons] at hpf1
    obtain ⟨hhead, htail⟩ := hpf1
    have hrest_ne : rest ≠ [] := by
      intro h; have := hperm.length_eq; simp [h] at this; omega
    have hne0 : e0.2 ≠ [] := by
      intro h0
      obtain ⟨e1, he1⟩ := List.exists_mem_of_ne_nil _ hrest_ne
      have := hhead e1.2 (List.mem_map.2 ⟨e1, he1, rfl⟩)
      rw [h0] at this
      exact this.1 List.nil_prefix
    obtain ⟨p, b, hpb⟩ := (List.eq_nil_or_concat e0.2).resolve_left hne0
    rw [List.concat_eq_append] at hpb
    have hb : b = zero ∨ b = one := hbin e0 he0 b (by rw [hpb]; simp)
    have hpbin : Binary p := fun u hu => hbin e0 he0 u (by rw [hpb]; simp [hu])
    have hlen0 : e0.2.length = p.length + 1 := by rw [hpb]; simp
    have hrestc : ∀ c ∈ rest.map Prod.snd, Binary c ∧ c.length ≤ p.length + 1 := by
      intro c hc
      obtain ⟨e, he, rfl⟩ := List.mem_map.1 hc
      have hecw : e ∈ cw := hperm.symm.subset (List.mem_cons_of_mem _ he)
      exact ⟨hbin e hecw, hlen0 ▸ hmax e hecw⟩
    have hcost0 : cost cw = e0.1 * (p.length + 1) + cost rest := by
      rw [cost_perm hperm, cost_cons, hlen0]
    have htl0 : totalLength cw = (p.length + 1) + totalLength rest := by
      rw [totalLength_perm hperm, totalLength_cons, hlen0]
    by_cases hsib : (p ++ [flipBit b]) ∈ rest.map Prod.snd
    · -- the sibling of the longest codeword is a codeword: merge the two lightest weights
      have hWlen := (List.perm_insertionSort (· ≤ ·) (cw.map Prod.fst)).length_eq
      rcases hW : (cw.map Prod.fst).insertionSort (· ≤ ·) with _ | ⟨w1, _ | ⟨w2, ws⟩⟩
      · rw [hW] at hWlen; simp at hWlen; omega
      · rw [hW] at hWlen; simp at hWlen; omega
      have hWperm : (w1 :: w2 :: ws).Perm (cw.map Prod.fst) :=
        hW ▸ List.perm_insertionSort (· ≤ ·) (cw.map Prod.fst)
      have hsorted : (w1 :: w2 :: ws).Sorted (· ≤ ·) :=
        hW ▸ List.sorted_insertionSort (· ≤ ·) (cw.map Prod.fst)
      have h1min : ∀ x ∈ w2 :: ws, w1 ≤ x := (List.sorted_cons.1 hsorted).1
      have h2min : ∀ x ∈ ws, w2 ≤ x := (List.sorted_cons.1 (List.sorted_cons.1 hsorted).2).1
      have hmin1 : ∀ e ∈ cw, w1 ≤ e.1 := by
        intro e he
        have : e.1 ∈ w1 :: w2 :: ws := hWperm.symm.subset (List.mem_map.2 ⟨e, he, rfl⟩)
        rcases List.mem_cons.1 this with h | h
        · exact h ▸ le_refl _
        · exact h1min _ h
      obtain ⟨r1, hf1, hs1, hc1⟩ := swap_to_front cw w1 e0.2
        (hWperm.subset (List.mem_cons_self _ _)) (List.mem_map.2 ⟨e0, he0, rfl⟩) hmin1 hmax
      have hr1f : (r1.map Prod.fst).Perm (w2 :: ws) := (hf1.trans hWperm.symm).cons_inv
      have hr1s : (r1.map Prod.snd).Perm (rest.map Prod.snd) :=
        (hs1.trans (hperm.map Prod.snd)).cons_inv
      have hmin2 : ∀ e ∈ r1, w2 ≤ e.1 := by
        intro e he
        have : e.1 ∈ w2 :: ws := hr1f.subset (List.mem_map.2 ⟨e, he, rfl⟩)
        rcases List.mem_cons.1 this with h | h
        · exact h ▸ le_refl _
        · exact h2min _ h
      have hmax2 : ∀ e ∈ r1, e.2.length ≤ (p ++ [flipBit b]).length := by
        intro e he
        have := (hrestc e.2 (hr1s.subset (List.mem_map.2 ⟨e, he, rfl⟩))).2
        simpa using this
      obtain ⟨r2, hf2, hs2, hc2⟩ := swap_to_front r1 w2 (p ++ [flipBit b])
        (hr1f.symm.subset (List.mem_cons_self _ _)) (hr1s.symm.subset hsib) hmin2 hmax2
      have hr2f : (r2.map Prod.fst).Perm ws := (hf2.trans hr1f).cons_inv
      have hs2r : ((p ++ [flipBit b]) :: r2.map Prod.snd).Perm (rest.map Prod.snd) :=
        hs2.trans hr1s
      have hpf2 := (hs2r.pairwise_iff Incomparable.symm).2 htail
      rw [List.pairwise_cons] at hpf2
      obtain ⟨hsibhead, htail2⟩ := hpf2
      have hr2rest : ∀ c ∈ r2.map Prod.snd, c ∈ rest.map Prod.snd :=
        fun c hc => hs2r.subset (List.mem_cons_of_mem _ hc)
      have hpfm : ((((w1 + w2, p) : Nat × JSString) :: r2).map Prod.snd).Pairwise
          Incomparable := by
        rw [List.map_cons, List.pairwise_cons]
        refine ⟨fun c hc => ?_, htail2⟩
        have hcr := hr2rest c hc
        exact parent_incomparable p b hb c (hrestc c hcr).1 (hrestc c hcr).2
          (hpb ▸ hhead c hcr) (fun h => (hsibhead c hc).1 (h ▸ List.prefix_refl _))
      have hbinm : ∀ e ∈ ((w1 + w2, p) : Nat × JSString) :: r2, Binary e.2 := by
        intro e he
        rcases List.mem_cons.1 he with rfl | he
        · exact hpbin
        · exact (hrestc e.2 (hr2rest e.2 (List.mem_map.2 ⟨e, he, rfl⟩))).1
      have htlrest : totalLength rest = (p.length + 1) + totalLength r2 := by
        have : totalLength rest = totalLength (((0, p ++ [flipBit b]) : Nat × JSString) :: r2) :=
          totalLength_of_snd_perm (by simpa using hs2r.symm)
        rw [this, totalLength_cons]; simp
      have htlm : totalLength (((w1 + w2, p) : Nat × JSString) :: r2) < n := by
        rw [totalLength_cons]; simp only; omega
      have hih := ih _ htlm _ (le_refl _) hbinm hpfm
      have hmc : mergeCost (cw.map Prod.fst)
          = (w1 + w2) + mergeCost ((((w1 + w2, p) : Nat × JSString) :: r2).map Prod.fst) := by
        rw [mergeCost_of_sort _ w1 w2 ws hW]
        congr 1
        apply mergeCost_perm
        rw [List.map_cons]
        exact List.perm_append_comm.trans (hr2f.symm.cons _)
      have hcm : cost (((w1 + w2, p) : Nat × JSString) :: r2)
          = (w1 + w2) * p.length + cost r2 := by
        rw [cost_cons]
      have hc1' : w1 * (p.length + 1) + cost r1 ≤ cost cw := by
        rw [cost_cons] at hc1; simpa [hlen0] using hc1
      have hc2' : w2 * (p.length + 1) + cost r2 ≤ cost r1 := by
        rw [cost_cons] at hc2; simpa using hc2
      rw [hmc]
      rw [hcm] at hih
      nlinarith [hih, hc1', hc2']
    · -- the sibling is free: the longest codeword can lose its last bit
      have hpf2 : ((((e0.1, p) : Nat × JSString) :: rest).map Prod.snd).Pairwise
          Incomparable := by
        rw [List.map_cons, List.pairwise_cons]
        refine ⟨fun c hc => ?_, htail⟩
        exact parent_incomparable p b hb c (hrestc c hc).1 (hrestc c hc).2
          (hpb ▸ hhead c hc) (fun h => hsib (h ▸ hc))
      have hbin2 : ∀ e ∈ ((e0.1, p) : Nat × JSString) :: rest, Binary e.2 := by
        intro e he
        rcases List.mem_cons.1 he with rfl | he
        · exact hpbin
        · exact (hrestc e.2 (List.mem_map.2 ⟨e, he, rfl⟩)).1
      have htl2 : totalLength (((e0.1, p) : Nat × JSString) :: rest) < n := by
        rw [totalLength_cons]; simp only; omega
      have hih := ih _ htl2 _ (le_refl _) hbin2 hpf2
      have hmc : mergeCost (cw.map Prod.fst)
          = mergeCost ((((e0.1, p) : Nat × JSString) :: rest).map Prod.fst) :=
        mergeCost_perm (hperm.map Prod.fst)
      rw [hmc]
      refine hih.trans ?_
      rw [cost_cons, hcost0]
      simp only
      nlinarith

/-! ## Optimality: the cost of the tree built by the loop -/

theorem pathCost_eq (t : HuffmanNode) :
    ∀ cur, t.mergeRule → (t.isLeaf = false ∨ cur ≠ []) →
      pathCost t cur = t.freq * cur.length + t.internalSum := by
  induction t with
  | leaf c f =>
    intro cur _ h
    have hc : cur ≠ [] := by simpa [isLeaf] using h
    simp [pathCost, hc, freq, internalSum]
  | node f l r ihl ihr =>
    intro cur hmr _
    obtain ⟨hf, _, hl, hr⟩ := hmr
    rw [pathCost, ihl _ hl (Or.inr (by simp)), ihr _ hr (Or.inr (by simp))]
    have h1 : (node f l r).freq = l.freq + r.freq := hf
    have h2 : (node f l r).internalSum = f + l.internalSum + r.internalSum := rfl
    rw [h1, h2, hf]
    simp only [List.length_append, List.length_singleton]
    ring

theorem leaves_sum_eq_pathCost (t : HuffmanNode) :
    ∀ (cur : JSString) (tbl : JSObject JSString), tbl.keys.Nodup →
      (∀ e ∈ codeList t cur, e ∈ tbl) →
      (t.leaves.map (fun e => e.2 * ((tbl.get e.1).getD []).length)).sum = pathCost t cur := by
  induction t with
  | leaf c f =>
    intro cur tbl hnd hmem
    have := JSObject.get_of_mem tbl c (if cur = [] then [zero] else cur) hnd
      (hmem _ (by simp [codeList]))
    simp [leaves, pathCost, this]
  | node f l r ihl ihr =>
    intro cur tbl hnd hmem
    simp only [leaves, List.map_append, List.sum_append, pathCost]
    rw [ihl (cur ++ [zero]) tbl hnd (fun e he => hmem e (by simp [codeList, he])),
      ihr (cur ++ [one]) tbl hnd (fun e he => hmem e (by simp [codeList, he]))]

theorem sortNodes_map_freq (ns : List HuffmanNode) :
    (ns.map HuffmanNode.freq).insertionSort (· ≤ ·) = (sortNodes ns).map HuffmanNode.freq := by
  refine List.eq_of_perm_of_sorted ?_ (List.sorted_insertionSort _ _) ?_
  · exact (List.perm_insertionSort _ _).trans ((sortNodes_perm ns).map _).symm
  · exact (List.pairwise_map).2 (sortNodes_sorted ns)

theorem poolCost_mergeStep (ns : List HuffmanNode) (h : 1 < ns.length) :
    poolCost (mergeStep ns) = poolCost ns := by
  obtain ⟨l, r, rest, hs, hm⟩ := mergeStep_cases ns h
  have hsort : (ns.map HuffmanNode.freq).insertionSort (· ≤ ·)
      = l.freq :: r.freq :: rest.map HuffmanNode.freq := by
    rw [sortNodes_map_freq, hs]; rfl
  have hsum : (ns.map HuffmanNode.internalSum).sum
      = l.internalSum + (r.internalSum + (rest.map HuffmanNode.internalSum).sum) := by
    rw [← (((sortNodes_perm ns).map HuffmanNode.internalSum).sum_eq), hs]; simp
  unfold poolCost
  rw [mergeCost_of_sort _ _ _ _ hsort, hsum, hm]
  simp only [List.map_append, List.map_cons, List.map_nil, List.sum_append, List.sum_cons,
    List.sum_nil, internalSum, freq]
  ring

theorem whileLoop_internalSum (ns : List HuffmanNode) (t : HuffmanNode)
    (ht : whileLoop ns.length ns = [t]) : t.internalSum = poolCost ns := by
  have hne : ns ≠ [] := by
    intro h; subst h; simp [whileLoop] at ht
  obtain ⟨t', ht', hp⟩ := whileLoop_spec (fun ns' => poolCost ns' = poolCost ns)
    (fun ns' h1 hp => (poolCost_mergeStep ns' h1).trans hp) ns.length ns (by omega) hne rfl
  rw [ht] at ht'
  cases ht'
  simpa [poolCost, mergeCost_short] using hp

theorem buildTree_internalSum (text : JSString) (t : HuffmanNode)
    (ht : buildTree text = some t) :
    t.internalSum = mergeCost ((countFrequencies text).map Prod.snd) := by
  have hne : initialNodes (countFrequencies text) ≠ [] := by
    intro h0
    simp [buildTree, h0, whileLoop] at ht
  obtain ⟨t', ht', _⟩ := whileLoop_tree _ hne (initialNodes_mergeRule _)
  have htt : t' = t := by
    simp only [buildTree, ht', List.head?_cons, Option.some.injEq] at ht
    exact ht
  subst htt
  rw [whileLoop_internalSum _ _ ht']
  have h0 : ((initialNodes (countFrequencies text)).map HuffmanNode.internalSum).sum = 0 := by
    apply List.sum_eq_zero
    intro x hx
    obtain ⟨n, hn, rfl⟩ := List.mem_map.1 hx
    obtain ⟨e, _, rfl⟩ := List.mem_map.1 hn
    rfl
  have h1 : (initialNodes (countFrequencies text)).map HuffmanNode.freq
      = (forInEntries (countFrequencies text)).map Prod.snd := by
    simp [initialNodes, List.map_map, Function.comp_def, freq]
  unfold poolCost
  rw [h0, h1, Nat.zero_add]
  exact mergeCost_perm ((forInEntries_perm _).map _)

/-! ## Optimality: weighted path length of a code -/

theorem tally_sum (g : JSString → Nat) (c : JSString) (fr : JSObject Nat) :
    ((tally fr c).map (fun e => e.2 * g e.1)).sum = (fr.map (fun e => e.2 * g e.1)).sum + g c := by
  induction fr with
  | nil => simp [tally, JSObject.set, JSObject.get]
  | cons e rest ih =>
    obtain ⟨k, v⟩ := e
    by_cases hk : k = c
    · subst hk
      simp [tally, JSObject.set, JSObject.get]; ring
    · have : tally ((k, v) :: rest) c = (k, v) :: tally rest c := by
        simp [tally, JSObject.set, JSObject.get, hk]
      rw [this]
      simp only [List.map_cons, List.sum_cons, ih]
      ring

theorem foldl_tally_sum (g : JSString → Nat) (l : List JSString) :
    ∀ fr : JSObject Nat, ((l.foldl tally fr).map (fun e => e.2 * g e.1)).sum
      = (fr.map (fun e => e.2 * g e.1)).sum + (l.map g).sum := by
  induction l with
  | nil => intro fr; simp
  | cons c rest ih =>
    intro fr
    rw [List.foldl_cons, ih, tally_sum]
    simp only [List.map_cons, List.sum_cons]
    ring

/-- Counting by entry of the frequency table is counting by occurrence. -/
theorem countFrequencies_sum (g : JSString → Nat) (text : JSString) :
    ((countFrequencies text).map (fun e => e.2 * g e.1)).sum
      = ((stringIterator text).map g).sum := by
  rw [countFrequencies_eq, foldl_tally_sum]; simp

theorem weightedLength_eq (code : JSString → JSString) (text : JSString) :
    weightedLength code text
      = ((countFrequencies text).map (fun e => e.2 * (code e.1).length)).sum := by
  unfold weightedLength
  have h1 : (countFrequencies text).map (fun e => e.2 * (code e.1).length)
      = ((countFrequencies text).keys).map
          (fun s => (stringIterator text).count s * (code s).length) := by
    simp only [JSObject.keys, List.map_map]
    apply List.map_congr_left
    intro e he
    simp only [Function.comp]
    rw [countFrequencies_entry text e.1 e.2 he]
  rw [h1]
  exact (((keys_perm_distinctSymbols text).map _).sum_eq).symm

theorem buildTree_eq_tree (text : JSString) (hne : text ≠ []) :
    (huffmanEncode text).tree = buildTree text := by
  simp [huffmanEncode, hne]

/-- C2 as stated fails: for the text `"a"` the returned table costs one bit, while the code
that gives `a` the empty string is (vacuously) prefix-free and costs nothing. -/
theorem optimality_single_symbol_fails : ¬ Optimal [97] := by
  intro h
  have h1 := h (fun _ => []) ⟨fun _ _ u hu => by simp at hu, fun a ha b hb hab => by
    have ha' : a = [97] := by simpa [stringIterator, iterFrom, isHighSurrogate] using ha
    have hb' : b = [97] := by simpa [stringIterator, iterFrom, isHighSurrogate] using hb
    exact absurd (ha'.trans hb'.symm) hab⟩
  have h2 : weightedLength (tableCode (huffmanEncode [97]).codes) [97] = 1 := by decide
  have h3 : weightedLength (fun _ => []) [97] = 0 := by decide
  omega

/-- C2 (weighted optimality, amended): for every non-empty text, the code table returned by
`huffmanEncode` has a weighted path length (sum over the distinct symbols of frequency times
code length) not larger than that of any binary prefix-free code that gives every symbol of
the text a non-empty code. -/
theorem optimality (text : JSString) (hne : text ≠ []) (alt : JSString → JSString)
    (halt : IsPrefixCode text alt) (hnonempty : ∀ s ∈ stringIterator text, alt s ≠ []) :
    weightedLength (tableCode (huffmanEncode text).codes) text ≤ weightedLength alt text := by
  obtain ⟨t, ht, hc, hl, hmr, _⟩ := huffmanEncode_spec text hne
  have hbt : buildTree text = some t := by rw [← buildTree_eq_tree text hne]; exact ht
  have hnd : (codeList t []).keys.Nodup := by
    rw [codeList_keys]; exact leaves_keys_nodup text t hl
  have hH : weightedLength (tableCode (huffmanEncode text).codes) text = pathCost t [] := by
    rw [weightedLength_eq, hc]
    rw [← leaves_sum_eq_pathCost t [] (codeList t []) hnd (fun e he => he)]
    exact ((hl.map _).sum_eq).symm
  rw [hH, weightedLength_eq]
  cases t with
  | leaf c f =>
    have hCF : countFrequencies text = [(c, f)] :=
      List.perm_singleton.1 (by simpa [leaves] using hl.symm)
    have hcin : c ∈ stringIterator text := by
      rw [← mem_countFrequencies_keys, hCF]; simp [JSObject.keys]
    have hpos : 1 ≤ (alt c).length := by
      have := hnonempty c hcin
      exact Nat.succ_le_of_lt (List.length_pos.2 this)
    rw [hCF]
    simp only [pathCost, if_true, List.length_singleton, List.map_cons, List.map_nil,
      List.sum_cons, List.sum_nil, Nat.add_zero]
    nlinarith
  | node f l r =>
    rw [pathCost_eq _ [] hmr (Or.inl rfl), buildTree_internalSum text _ hbt]
    simp only [List.length_nil, Nat.mul_zero, Nat.zero_add]
    have hmemk : ∀ e ∈ countFrequencies text, e.1 ∈ stringIterator text := fun e he =>
      (mem_countFrequencies_keys text e.1).1 (List.mem_map.2 ⟨e, he, rfl⟩)
    have hbin : ∀ e ∈ (countFrequencies text).map (fun e => (e.2, alt e.1)), Binary e.2 := by
      intro e he
      obtain ⟨e', he', rfl⟩ := List.mem_map.1 he
      exact halt.1 _ (hmemk e' he')
    have hpf : (((countFrequencies text).map (fun e => (e.2, alt e.1))).map
        Prod.snd).Pairwise Incomparable := by
      rw [List.map_map, List.pairwise_map]
      have hk : (countFrequencies text).Pairwise (fun a b => a.1 ≠ b.1) :=
        List.pairwise_map.1 (countFrequencies_nodup text)
      refine hk.imp_of_mem ?_
      intro a b ha hb hab
      exact ⟨halt.2 _ (hmemk a ha) _ (hmemk b hb) hab,
        halt.2 _ (hmemk b hb) _ (hmemk a ha) (fun h => hab h.symm)⟩
    have hlb := mergeCost_le_cost _ _ (le_refl _) hbin hpf
    simpa [cost, List.map_map, Function.comp_def] using hlb

theorem optimality_witness :
    ([97, 98, 98] : JSString) ≠ [] ∧
    weightedLength (tableCode (huffmanEncode [97, 98, 98]).codes) [97, 98, 98]
      ≤ weightedLength (fun s => if s = [97] then [zero, zero] else [one]) [97, 98, 98] :=
  ⟨by decide, optimality [97, 98, 98] (by decide)
    (fun s => if s = [97] then [zero, zero] else [one])
    ⟨by decide, by decide⟩ (by decide)⟩

end Huffman
